import Mathlib

/-!
# Verification of the Frappe nested-set engine (`frappe/utils/nestedset.py`)

Shallow embedding of the interval-maintenance algorithms of the Nested Set
Model implementation: the table `tab{DocType}` becomes a list of rows
(`Db`), SQL `UPDATE ... WHERE` statements become predicate-guarded maps over
that list, `SELECT`s become filters, and functions that can raise
(`frappe.throw`, bare `raise`, index errors on empty result sets) return
`Except`.  The embedding follows the Python source statement by statement;
each definition cites the function it translates.
-/

namespace NestedSetModel

/-- One row of the `tab{DocType}` table.  `name` is the primary key, `parent`
is the value of the tree's parent link field (`parent_{doctype}`), and
`old_parent` is the auxiliary field maintained by `update_nsm`.  An empty
`parent` means the row is a root.  The `modified` timestamp column is not
modelled: no claim mentions it. -/
structure Node where
  name : String
  parent : String
  old_parent : String
  lft : Int
  rgt : Int
deriving Repr, DecidableEq

/-- The `tab{DocType}` table, in physical row order.  An un-`ORDER`ed SQL
`SELECT` enumerates rows in this order. -/
abbrev Db := List Node

/-- The ways the Python functions can raise: `NestedSetRecursionError`
(thrown by `validate_loop`), an index error on an empty SQL result set
(`[0]` on no rows, or `max(rgt)` of an empty table), and the bare
`raise Exception` of `update_add_node`'s consistency check. -/
inductive NSError where
  | recursionError
  | notFound
  | integrityFault
deriving Repr, DecidableEq

/-- `UPDATE tab SET ... WHERE p`: apply `f` to every row satisfying `p`. -/
def sqlUpdate (p : Node → Bool) (f : Node → Node) (db : Db) : Db :=
  db.map (fun n => if p n then f n else n)

/-- `SELECT ... WHERE name = s`, taking the first result (`[0]`). -/
def sqlFirst (db : Db) (s : String) : Option Node :=
  db.find? (fun n => n.name == s)

/-- Bytewise lexicographic comparison of key strings, used to model SQL
`ORDER BY name ASC` (which `rebuild_tree` applies to root rows). -/
def lexLe : List Char → List Char → Bool
  | [], _ => true
  | _ :: _, [] => false
  | a :: as, b :: bs => if a < b then true else if a = b then lexLe as bs else false

/-- Lexicographic `≤` on strings (`ORDER BY name ASC` collation). -/
def strLe (a b : String) : Bool := lexLe a.data b.data

/-- `validate_loop` (nestedset.py:193-205): raise `NestedSetRecursionError`
when `name` occurs among the rows whose interval (non-strictly) contains
`[lft, rgt]` — i.e. the document would be an ancestor-or-self of the
prospective parent. -/
def validate_loop (db : Db) (name : String) (lft rgt : Int) : Except NSError Unit :=
  if ((db.filter (fun n => decide (n.lft ≤ lft) && decide (rgt ≤ n.rgt))).map
        (fun n => n.name)).contains name
  then .error .recursionError
  else .ok ()

/-- The target-bound computation of `update_add_node` (nestedset.py:67-75):
with a parent, read the parent row's `(lft, rgt)` and run `validate_loop`
against it, the target being the parent's `rgt`; with no parent, the target
is `COALESCE(MAX(rgt), 0) + 1` over the rows whose parent field is empty. -/
def addTarget (db : Db) (docName parent : String) : Except NSError Int :=
  if parent ≠ "" then
    match sqlFirst db parent with
    | none => .error .notFound
    | some p =>
      match validate_loop db docName p.lft p.rgt with
      | .error e => .error e
      | .ok _ => .ok p.rgt
  else
    .ok ((match ((db.filter (fun n => n.parent == "")).map (fun n => n.rgt)).max? with
          | none => 0
          | some m => m) + 1)

/-- Python's `right = right or 1` (nestedset.py:76): `0` is falsy. -/
def orOne (r : Int) : Int := if r = 0 then 1 else r

/-- The two widening updates of `update_add_node` (nestedset.py:79-80):
`rgt = rgt + 2` where `rgt >= t`, then `lft = lft + 2` where `lft >= t`. -/
def addWiden (db : Db) (t : Int) : Db :=
  sqlUpdate (fun n => decide (t ≤ n.lft)) (fun n => { n with lft := n.lft + 2 })
    (sqlUpdate (fun n => decide (t ≤ n.rgt)) (fun n => { n with rgt := n.rgt + 2 }) db)

/-- The consistency check of `update_add_node` (nestedset.py:83): some row
has `lft = t` or `rgt = t + 1`. -/
def addOccupied (db : Db) (t : Int) : Bool :=
  db.any (fun n => n.lft == t || n.rgt == t + 1)

/-- `update_add_node` (nestedset.py:53-88): insert the document named
`docName` as a new node under `parent` (or as a new root when `parent` is
empty).  Returns the updated table together with the returned `right`
value (the assigned `lft` of the new node). -/
def update_add_node (db : Db) (docName parent : String) : Except NSError (Db × Int) :=
  match addTarget db docName parent with
  | .error e => .error e
  | .ok r0 =>
    let t := orOne r0
    let db2 := addWiden db t
    if addOccupied db2 t then .error .integrityFault
    else
      .ok (sqlUpdate (fun n => n.name == docName)
        (fun n => { n with lft := t, rgt := t + 1 }) db2, t)

/-- The "move to dark side" step of `update_move_node` (nestedset.py:104-105):
negate both bounds of every row whose interval lies within
`[doc.lft, doc.rgt]`. -/
def moveDetach (doc : Node) (db : Db) : Db :=
  sqlUpdate (fun n => decide (doc.lft ≤ n.lft) && decide (n.rgt ≤ doc.rgt))
    (fun n => { n with lft := -n.lft, rgt := -n.rgt }) db

/-- The gap-compaction steps of `update_move_node` (nestedset.py:107-114):
shift every row with `lft > doc.rgt` left by `diff`, then reduce the `rgt`
of every straddling ancestor (`lft < doc.lft` and `rgt > doc.rgt`) by
`diff`, where `diff = doc.rgt - doc.lft + 1`. -/
def moveCompact (doc : Node) (db : Db) : Db :=
  let diff := doc.rgt - doc.lft + 1
  sqlUpdate (fun n => decide (n.lft < doc.lft) && decide (doc.rgt < n.rgt))
    (fun n => { n with rgt := n.rgt - diff })
    (sqlUpdate (fun n => decide (doc.rgt < n.lft))
      (fun n => { n with lft := n.lft - diff, rgt := n.rgt - diff }) db)

/-- The make-room steps of `update_move_node` (nestedset.py:120-131), with
`np` the re-read (post-compaction) parent row: `rgt = rgt + diff` for the
rows named `parent`, then shift right by `diff` every row with
`lft > np.rgt`, then `rgt = rgt + diff` for every row with `lft < np.lft`
and `rgt > np.rgt`. -/
def moveMakeRoom (doc : Node) (parent : String) (np : Node) (db : Db) : Db :=
  let diff := doc.rgt - doc.lft + 1
  sqlUpdate (fun n => decide (n.lft < np.lft) && decide (np.rgt < n.rgt))
    (fun n => { n with rgt := n.rgt + diff })
    (sqlUpdate (fun n => decide (np.rgt < n.lft))
      (fun n => { n with lft := n.lft + diff, rgt := n.rgt + diff })
      (sqlUpdate (fun n => n.name == parent)
        (fun n => { n with rgt := n.rgt + diff }) db))

/-- The "bring back from dark side" step of `update_move_node`
(nestedset.py:139-141): every row with `lft < 0` gets
`lft = -lft + newDiff`, `rgt = -rgt + newDiff`. -/
def reattach (newDiff : Int) (db : Db) : Db :=
  sqlUpdate (fun n => decide (n.lft < 0))
    (fun n => { n with lft := -n.lft + newDiff, rgt := -n.rgt + newDiff }) db

/-- `update_move_node` (nestedset.py:91-141): re-parent the subtree rooted
at `doc` (whose in-memory `lft`/`rgt` span the subtree) under `parent`, or
make it a new root when `parent` is empty. -/
def update_move_node (db : Db) (doc : Node) (parent : String) : Except NSError Db :=
  match (if parent ≠ "" then
          match sqlFirst db parent with
          | none => .error .notFound
          | some np => validate_loop db doc.name np.lft np.rgt
        else .ok () : Except NSError Unit) with
  | .error e => .error e
  | .ok _ =>
    if parent ≠ "" then
      match sqlFirst (moveCompact doc (moveDetach doc db)) parent with
      | none => .error .notFound
      | some np => .ok (reattach (np.rgt - doc.lft)
          (moveMakeRoom doc parent np (moveCompact doc (moveDetach doc db))))
    else
      match ((moveCompact doc (moveDetach doc db)).map (fun n => n.rgt)).max? with
      | none => .error .notFound
      | some maxRgt => .ok (reattach (maxRgt + 1 - doc.lft)
          (moveCompact doc (moveDetach doc db)))

/-- The child enumeration of `rebuild_node` (nestedset.py:180):
`SELECT name FROM tab WHERE parent_field = parent` — note: no `ORDER BY`,
so rows come back in table order. -/
def childNames (db : Db) (parent : String) : List String :=
  (db.filter (fun n => n.parent == parent)).map (fun n => n.name)

/-- The root enumeration of `rebuild_tree` (nestedset.py:156):
`SELECT name ... WHERE parent_field = '' ... ORDER BY name ASC`. -/
def rootNames (db : Db) : List String :=
  List.insertionSort (strLe · ·) ((db.filter (fun n => n.parent == "")).map (fun n => n.name))

mutual

/-- `rebuild_node` (nestedset.py:162-190): assign `lft = left`, recurse into
the children (in store order, the SQL having no `ORDER BY`) starting the
counter at `left + 1`, then set the row's `rgt` to the counter after the
children and return the counter plus one.  `fuel` bounds the recursion (the
Python recursion does not terminate on cyclic parent links); it is consumed
on every step, and every theorem below is conditioned on success, so the
amount of fuel is immaterial. -/
def rebuild_node : Nat → Db → String → Int → Option (Db × Int)
  | 0, _, _, _ => none
  | fuel + 1, db, parent, left =>
    match rebuild_children fuel db (childNames db parent) (left + 1) with
    | none => none
    | some (db2, right) =>
      some (sqlUpdate (fun n => n.name == parent)
        (fun n => { n with lft := left, rgt := right }) db2, right + 1)

/-- The `for r in result: right = rebuild_node(...)` loops of
`rebuild_tree`/`rebuild_node`: process a list of node names sequentially,
threading the table and the counter. -/
def rebuild_children : Nat → Db → List String → Int → Option (Db × Int)
  | _, db, [], right => some (db, right)
  | 0, _, _ :: _, _ => none
  | fuel + 1, db, c :: rest, right =>
    match rebuild_node fuel db c right with
    | none => none
    | some (db2, right2) => rebuild_children fuel db2 rest right2

end

/-- `rebuild_tree` (nestedset.py:143-160): enumerate the roots in
lexicographic key order and rebuild each, the shared counter starting
at 1. -/
def rebuild_tree (fuel : Nat) (db : Db) : Option Db :=
  match rebuild_children fuel db (rootNames db) 1 with
  | none => none
  | some (db2, _) => some db2

mutual

/-- Modelled from the spec claim being tested (not from the source): like
`rebuild_node`, but enumerating the children of each node in lexicographic
key order, as claim C2 asserts the code does. -/
def rebuild_node_lexOrder : Nat → Db → String → Int → Option (Db × Int)
  | 0, _, _, _ => none
  | fuel + 1, db, parent, left =>
    match rebuild_children_lexOrder fuel db
        (List.insertionSort (strLe · ·) (childNames db parent)) (left + 1) with
    | none => none
    | some (db2, right) =>
      some (sqlUpdate (fun n => n.name == parent)
        (fun n => { n with lft := left, rgt := right }) db2, right + 1)

/-- Sequential worklist for `rebuild_node_lexOrder`. -/
def rebuild_children_lexOrder : Nat → Db → List String → Int → Option (Db × Int)
  | _, db, [], right => some (db, right)
  | 0, _, _ :: _, _ => none
  | fuel + 1, db, c :: rest, right =>
    match rebuild_node_lexOrder fuel db c right with
    | none => none
    | some (db2, right2) => rebuild_children_lexOrder fuel db2 rest right2

end

/-- The spec-claimed variant of `rebuild_tree` with lexicographic child
order (for comparison with the source's behaviour). -/
def rebuild_tree_lexOrder (fuel : Nat) (db : Db) : Option Db :=
  match rebuild_children_lexOrder fuel db (rootNames db) 1 with
  | none => none
  | some (db2, _) => some db2

/-- `limit_page_length`: `None` means no limit. -/
def applyLimit (limit : Option Nat) (l : List String) : List String :=
  match limit with
  | none => l
  | some k => l.take k

/-- `get_ancestors_of` (nestedset.py:306-313) at its default
`order_by="lft desc"`: the names of the rows whose interval strictly
contains the named node's interval, ordered by `lft` descending, truncated
to `limit`.  `none` when the named node does not exist (the Python
unpacking of `get_value` fails there). -/
def get_ancestors_of (db : Db) (name : String) (limit : Option Nat) :
    Option (List String) :=
  match sqlFirst db name with
  | none => none
  | some nd =>
    some (applyLimit limit
      ((List.insertionSort (fun a b => b.lft ≤ a.lft)
          (db.filter (fun n => decide (n.lft < nd.lft) && decide (nd.rgt < n.rgt)))).map
        (fun n => n.name)))

/-- `get_descendants_of` (nestedset.py:315-323) at its default
`order_by="lft desc"`: the names of the rows whose interval is strictly
contained in the named node's interval, ordered by `lft` descending,
truncated to `limit`. -/
def get_descendants_of (db : Db) (name : String) (limit : Option Nat) :
    Option (List String) :=
  match sqlFirst db name with
  | none => none
  | some nd =>
    some (applyLimit limit
      ((List.insertionSort (fun a b => b.lft ≤ a.lft)
          (db.filter (fun n => decide (nd.lft < n.lft) && decide (n.rgt < nd.rgt)))).map
        (fun n => n.name)))

/-- `update_nsm` (nestedset.py:23-51): dispatch on the document's state —
both bounds unset (Python falsy, i.e. `0`) means first insertion; a parent
different from the recorded `old_parent` means relocation; otherwise no
structural change.  Afterwards record the current parent in the row's
`old_parent` column and reload the document from the table. -/
def update_nsm (db : Db) (doc : Node) : Except NSError (Db × Node) :=
  match (if doc.lft = 0 ∧ doc.rgt = 0 then
          match update_add_node db doc.name doc.parent with
          | .error e => .error e
          | .ok (db2, _) => .ok db2
        else if doc.old_parent ≠ doc.parent then
          update_move_node db doc doc.parent
        else
          .ok db : Except NSError Db) with
  | .error e => .error e
  | .ok db2 =>
    match sqlFirst (sqlUpdate (fun n => n.name == doc.name)
        (fun n => { n with old_parent := doc.parent }) db2) doc.name with
    | none => .error .notFound
    | some d => .ok (sqlUpdate (fun n => n.name == doc.name)
        (fun n => { n with old_parent := doc.parent }) db2, d)

/-! ## Helper lemmas -/

/-- If some row of the table carries `name` and its interval (non-strictly)
contains `[lft, rgt]`, then `validate_loop` raises. -/
theorem validate_loop_error_of_mem (db : Db) (name : String) (lft rgt : Int)
    (n : Node) (hn : n ∈ db) (hname : n.name = name)
    (h1 : n.lft ≤ lft) (h2 : rgt ≤ n.rgt) :
    validate_loop db name lft rgt = .error .recursionError := by
  have hmem : name ∈ (db.filter
      (fun n => decide (n.lft ≤ lft) && decide (rgt ≤ n.rgt))).map (fun n => n.name) := by
    refine List.mem_map.mpr ⟨n, ?_, hname⟩
    refine List.mem_filter.mpr ⟨hn, ?_⟩
    simp [h1, h2]
  simp [validate_loop, List.contains, List.elem_eq_mem, hmem]

/-- A row found by `sqlFirst db s` is a member of the table and carries the
looked-up name. -/
theorem sqlFirst_mem_name {db : Db} {s : String} {q : Node}
    (hq : sqlFirst db s = some q) : q ∈ db ∧ q.name = s := by
  refine ⟨List.mem_of_find?_eq_some hq, ?_⟩
  have := List.find?_some hq
  simpa using this

instance exceptDecEq {α β : Type} [DecidableEq α] [DecidableEq β] :
    DecidableEq (Except α β) := fun a b =>
  match a, b with
  | .error x, .error y =>
    if h : x = y then isTrue (by rw [h]) else isFalse (by simp [h])
  | .ok x, .ok y =>
    if h : x = y then isTrue (by rw [h]) else isFalse (by simp [h])
  | .error _, .ok _ => isFalse (by simp)
  | .ok _, .error _ => isFalse (by simp)

/-- `sqlUpdate` touches no row count. -/
theorem length_sqlUpdate (p : Node → Bool) (f : Node → Node) (db : Db) :
    (sqlUpdate p f db).length = db.length := by
  simp [sqlUpdate]

/-- Row `i` of an `UPDATE` result. -/
theorem getElem_sqlUpdate (p : Node → Bool) (f : Node → Node) (db : Db)
    (i : Nat) (h : i < db.length) (h2 : i < (sqlUpdate p f db).length) :
    (sqlUpdate p f db)[i] =
      if p (db[i]) then f (db[i]) else db[i] := by
  simp [sqlUpdate]

/-- `max?` of a list of integers: the result is a member and an upper
bound. -/
theorem intList_max?_spec {l : List Int} {m : Int} (h : l.max? = some m) :
    m ∈ l ∧ ∀ b ∈ l, b ≤ m := by
  haveI : Std.Antisymm (fun a b : Int => a ≤ b) := ⟨fun h1 h2 => le_antisymm h1 h2⟩
  rw [List.max?_eq_some_iff (fun a => le_refl a) (fun a b => max_choice a b)
    (fun a b c => max_le_iff)] at h
  exact h

/-- A nonempty list of integers has a `max?`. -/
theorem intList_max?_isSome {l : List Int} (h : l ≠ []) : ∃ m, l.max? = some m := by
  cases hm : l.max? with
  | none => exact absurd (List.max?_eq_none_iff.mp hm) h
  | some m => exact ⟨m, rfl⟩

/-- Success characterization of `update_add_node`: the target computation
succeeded, the post-widening consistency check passed, and the result is
the widened table with the document's rows set to `(t, t + 1)`. -/
theorem update_add_node_ok_iff (db : Db) (docName parent : String) (db2 : Db) (t : Int) :
    update_add_node db docName parent = .ok (db2, t) ↔
      ∃ r0, addTarget db docName parent = .ok r0 ∧ t = orOne r0 ∧
        addOccupied (addWiden db (orOne r0)) (orOne r0) = false ∧
        db2 = sqlUpdate (fun n => n.name == docName)
          (fun n => { n with lft := orOne r0, rgt := orOne r0 + 1 })
          (addWiden db (orOne r0)) := by
  unfold update_add_node
  cases h : addTarget db docName parent with
  | error e => simp [h]
  | ok r0 =>
    by_cases hocc : addOccupied (addWiden db (orOne r0)) (orOne r0)
    · simp [h, hocc]
    · simp only [h, hocc, Bool.false_eq_true, if_false, Except.ok.injEq, Prod.mk.injEq]
      constructor
      · rintro ⟨hdb, ht⟩
        exact ⟨r0, rfl, ht.symm, by simpa using hocc, hdb.symm⟩
      · rintro ⟨r1, hr1, ht, _, hdb⟩
        subst hr1
        exact ⟨hdb.symm, ht.symm⟩

/-! ## C3 — moving (or re-inserting) a node under one of its own
descendants raises `NestedSetRecursionError` -/

/-- C3: if the prospective parent row `p` is a strict descendant of the
document (its interval is strictly inside the document's row interval),
both `update_move_node` and `update_add_node` stop with
`NestedSetRecursionError`.  The `validate_loop` check runs before the first
`UPDATE` in both functions, which the embedding reflects by returning
`Except.error` with no table: the caller's table — every node's
`(lft, rgt)` — is unchanged. -/
theorem loop_guard_rejects_descendant (db : Db) (doc p : Node) (parent : String)
    (hpar : parent ≠ "") (hp : sqlFirst db parent = some p) (hmem : doc ∈ db)
    (hd1 : doc.lft < p.lft) (hd2 : p.rgt < doc.rgt) :
    update_move_node db doc parent = .error .recursionError ∧
    update_add_node db doc.name parent = .error .recursionError := by
  have hv := validate_loop_error_of_mem db doc.name p.lft p.rgt doc hmem rfl
    (le_of_lt hd1) (le_of_lt hd2)
  constructor
  · simp [update_move_node, hpar, hp, hv]
  · simp [update_add_node, addTarget, hpar, hp, hv]

/-- Witness for C3 on the concrete tree `R(1,6) ⊃ A(2,5) ⊃ a1(3,4)`:
moving `A` under its descendant `a1` raises. -/
theorem loop_guard_rejects_descendant_witness :
    update_move_node
        [⟨"R", "", "", 1, 6⟩, ⟨"A", "R", "", 2, 5⟩, ⟨"a1", "A", "", 3, 4⟩]
        ⟨"A", "R", "", 2, 5⟩ "a1" = .error .recursionError ∧
    update_add_node
        [⟨"R", "", "", 1, 6⟩, ⟨"A", "R", "", 2, 5⟩, ⟨"a1", "A", "", 3, 4⟩]
        "A" "a1" = .error .recursionError :=
  loop_guard_rejects_descendant
    [⟨"R", "", "", 1, 6⟩, ⟨"A", "R", "", 2, 5⟩, ⟨"a1", "A", "", 3, 4⟩]
    ⟨"A", "R", "", 2, 5⟩ ⟨"a1", "A", "", 3, 4⟩ "a1"
    (by decide) (by decide) (by decide) (by decide) (by decide)

/-! ## C6 — an occupied `[t, t+1]` after widening aborts the insertion -/

/-- C6: writing `t` for the final target `orOne r0`, if after the widening
updates some row occupies exactly the interval `[t, t + 1]`,
`update_add_node` raises (the bare `raise Exception` of nestedset.py:85,
modelled as `integrityFault`) instead of assigning the new node's bounds;
and the new node's bounds are assigned (the `.ok` outcome) only when no
such occupant exists. -/
theorem insert_integrity_guard (db : Db) (docName parent : String) (r0 : Int)
    (ht : addTarget db docName parent = .ok r0) :
    ((∃ n ∈ addWiden db (orOne r0), n.lft = orOne r0 ∧ n.rgt = orOne r0 + 1) →
        update_add_node db docName parent = .error .integrityFault) ∧
    (∀ db2 t, update_add_node db docName parent = .ok (db2, t) →
      ¬ ∃ n ∈ addWiden db (orOne r0), n.lft = orOne r0 ∧ n.rgt = orOne r0 + 1) := by
  constructor
  · rintro ⟨n, hn, h1, h2⟩
    have hocc : addOccupied (addWiden db (orOne r0)) (orOne r0) = true :=
      List.any_eq_true.mpr ⟨n, hn, by simp [h1, h2]⟩
    simp [update_add_node, ht, hocc]
  · rintro db2 t hok ⟨n, hn, h1, h2⟩
    rw [update_add_node_ok_iff] at hok
    obtain ⟨r1, hr1, _, hocc, _⟩ := hok
    obtain rfl : r0 = r1 := Except.ok.inj (ht.symm.trans hr1)
    have hno := List.any_eq_false.mp hocc n hn
    simp [h1, h2] at hno

/-- Witness for C6 at the single-root table `P(1,2)` with a pending row
`c`: the target computation yields 2 and the guard's two directions hold
there. -/
theorem insert_integrity_guard_witness :
    ((∃ n ∈ addWiden [⟨"P", "", "", 1, 2⟩, ⟨"c", "P", "", 0, 0⟩] (orOne 2),
        n.lft = orOne 2 ∧ n.rgt = orOne 2 + 1) →
      update_add_node [⟨"P", "", "", 1, 2⟩, ⟨"c", "P", "", 0, 0⟩] "c" "P" =
        .error .integrityFault) ∧
    (∀ db2 t,
      update_add_node [⟨"P", "", "", 1, 2⟩, ⟨"c", "P", "", 0, 0⟩] "c" "P" = .ok (db2, t) →
      ¬ ∃ n ∈ addWiden [⟨"P", "", "", 1, 2⟩, ⟨"c", "P", "", 0, 0⟩] (orOne 2),
        n.lft = orOne 2 ∧ n.rgt = orOne 2 + 1) :=
  insert_integrity_guard [⟨"P", "", "", 1, 2⟩, ⟨"c", "P", "", 0, 0⟩] "c" "P" 2 (by decide)

/-! ## C5 — root insertion targets `max(rgt) + 1` over the empty-parent
rows -/

/-- C5: inserting with no parent chooses target `max(rgt) + 1` computed
only over the rows whose parent field is empty (1 when there are none),
which places the new root after all existing roots: every pre-existing
root row keeps its bounds (they all lie strictly left of `t`), and the new
document's rows get `(t, t + 1)`. -/
theorem root_insert_target (db : Db) (docName : String) (db2 : Db) (t : Int)
    (hroots : ∀ n ∈ db, n.parent = "" → 0 ≤ n.rgt ∧ n.lft ≤ n.rgt)
    (hok : update_add_node db docName "" = .ok (db2, t)) :
    ((db.filter (fun n => n.parent == "")) = [] → t = 1) ∧
    ((db.filter (fun n => n.parent == "")) ≠ [] →
      ∃ m, ((db.filter (fun n => n.parent == "")).map (fun n => n.rgt)).max? = some m ∧
        t = m + 1) ∧
    (∀ n ∈ db, n.parent = "" → n.rgt < t) ∧
    db2.length = db.length ∧
    (∀ i (h1 : i < db.length) (h2 : i < db2.length),
      ((db[i]).parent = "" → (db[i]).name ≠ docName → db2[i] = db[i]) ∧
      ((db[i]).name = docName →
        (db2[i]).lft = t ∧ (db2[i]).rgt = t + 1)) := by
  rw [update_add_node_ok_iff] at hok
  obtain ⟨r0, hr0, ht, hocc, hdb2⟩ := hok
  have hr0' : r0 = (match ((db.filter (fun n => n.parent == "")).map
      (fun n => n.rgt)).max? with | none => 0 | some m => m) + 1 := by
    simpa [addTarget] using hr0.symm
  -- the target is strictly above every root's `rgt`
  have hbound : ∀ n ∈ db, n.parent = "" → n.rgt < orOne r0 := by
    intro n hn hp
    have hmem : n.rgt ∈ (db.filter (fun n => n.parent == "")).map (fun n => n.rgt) :=
      List.mem_map.mpr ⟨n, List.mem_filter.mpr ⟨hn, by simp [hp]⟩, rfl⟩
    obtain ⟨m, hm⟩ := intList_max?_isSome (l :=
      (db.filter (fun n => n.parent == "")).map (fun n => n.rgt))
      (by intro hnil; rw [hnil] at hmem; exact absurd hmem (List.not_mem_nil _))
    obtain ⟨hmmem, hmub⟩ := intList_max?_spec hm
    obtain ⟨q, hq, hqr⟩ := List.mem_map.mp hmmem
    have hq0 : 0 ≤ m := by
      have := (hroots q (List.mem_filter.mp hq).1
        (by simpa using (List.mem_filter.mp hq).2)).1
      omega
    have hr0m : r0 = m + 1 := by rw [hr0', hm]
    have : orOne r0 = r0 := by
      unfold orOne
      rw [if_neg]
      omega
    have := hmub n.rgt hmem
    omega
  refine ⟨?_, ?_, ?_, ?_, ?_⟩
  · intro hnil
    rw [ht, hr0']
    simp [hnil, orOne]
  · intro hne
    obtain ⟨m, hm⟩ := intList_max?_isSome (l :=
      (db.filter (fun n => n.parent == "")).map (fun n => n.rgt))
      (by simpa using hne)
    obtain ⟨hmmem, _⟩ := intList_max?_spec hm
    obtain ⟨q, hq, hqr⟩ := List.mem_map.mp hmmem
    have hq0 : 0 ≤ m := by
      have := (hroots q (List.mem_filter.mp hq).1
        (by simpa using (List.mem_filter.mp hq).2)).1
      omega
    refine ⟨m, hm, ?_⟩
    have hr0m : r0 = m + 1 := by rw [hr0', hm]
    rw [ht]
    unfold orOne
    rw [if_neg] <;> omega
  · intro n hn hp
    rw [ht]
    exact hbound n hn hp
  · rw [hdb2, addWiden]
    simp [length_sqlUpdate]
  · intro i h1 h2
    constructor
    · intro hp hname
      have hrlt : (db[i]).rgt < orOne r0 := hbound _ (List.getElem_mem h1) hp
      have hllt : (db[i]).lft < orOne r0 := by
        have := (hroots _ (List.getElem_mem h1) hp).2
        omega
      subst hdb2
      simp only [addWiden, sqlUpdate, List.getElem_map]
      simp [hname, (show ¬ orOne r0 ≤ (db[i]).rgt from by omega),
        (show ¬ orOne r0 ≤ (db[i]).lft from by omega)]
    · intro hname
      subst hdb2
      rw [ht]
      simp only [addWiden, sqlUpdate, List.getElem_map]
      by_cases hc1 : orOne r0 ≤ (db[i]).rgt <;>
        by_cases hc2 : orOne r0 ≤ (db[i]).lft <;>
          simp [hc1, hc2, hname]

/-- Witness for C5: inserting `D` (a row still at `(0,0)`) as a new root
into a table whose roots are `R(1,2)` and `D(0,0)` itself gives target
`2 + 1 = 3`, strictly beyond the existing root `R`'s right bound. -/
theorem root_insert_target_witness :
    (Node.mk "R" "" "" 1 2).rgt < 3 :=
  (root_insert_target [⟨"R", "", "", 1, 2⟩, ⟨"D", "", "", 0, 0⟩] "D"
    [⟨"R", "", "", 1, 2⟩, ⟨"D", "", "", 3, 4⟩] 3 (by decide) (by decide)).2.2.1
    ⟨"R", "", "", 1, 2⟩ (by decide) rfl

/-- `find?`-by-name commutes with a name-preserving row transformation. -/
theorem sqlFirst_map (db : Db) (s : String) (g : Node → Node)
    (hg : ∀ n, (g n).name = n.name) :
    sqlFirst (db.map g) s = (sqlFirst db s).map g := by
  induction db with
  | nil => rfl
  | cons a l ih =>
    simp only [sqlFirst, List.map_cons, List.find?] at *
    by_cases h : a.name = s
    · simp [hg, h]
    · have h1 : ((g a).name == s) = false := by simp [hg, h]
      have h2 : (a.name == s) = false := by simp [h]
      rw [h1, h2]
      exact ih

/-! ## C4 — insertion under a parent: target, widening, and what is (not)
left untouched -/

/-- Counterexample to C4 as stated: the claim says a leaf insertion under
parent `P` "leaves all other trees (disjoint root groups) untouched", but
the widening `UPDATE`s shift every row with a bound `≥ t` — including
whole trees entirely to the right of `P`'s tree.  Here two disjoint root
groups `a(1,2)` and `b(3,4)` coexist; inserting `c` under `a` (target
`t = 2`) moves the unrelated root `b` from `(3,4)` to `(5,6)`. -/
theorem insert_touches_right_trees_cex :
    update_add_node [⟨"a", "", "", 1, 2⟩, ⟨"b", "", "", 3, 4⟩, ⟨"c", "a", "", 0, 0⟩]
        "c" "a" =
      .ok ([⟨"a", "", "", 1, 4⟩, ⟨"b", "", "", 5, 6⟩, ⟨"c", "a", "", 2, 3⟩], 2) ∧
    sqlFirst [⟨"a", "", "", 1, 2⟩, ⟨"b", "", "", 3, 4⟩, ⟨"c", "a", "", 0, 0⟩] "b" =
      some ⟨"b", "", "", 3, 4⟩ ∧
    sqlFirst [⟨"a", "", "", 1, 4⟩, ⟨"b", "", "", 5, 6⟩, ⟨"c", "a", "", 2, 3⟩] "b" =
      some ⟨"b", "", "", 5, 6⟩ := by decide

/-- C4 (amended): inserting a new leaf `docName` under an existing parent
`parent` assigns the new node the interval `(t, t + 1)` where `t` is the
parent's `rgt` before the operation, widens every node with `rgt ≥ t` by 2
on the right bound and every node with `lft ≥ t` by 2 on the left bound
(so the parent's width increases by exactly 2), returns the assigned left
value `t`, and leaves untouched exactly the rows with both bounds `< t`
(trees entirely to the left); rows with bounds `≥ t` — including whole
trees to the right of the parent's tree — are shifted, not untouched. -/
theorem insert_under_parent_characterized (db : Db) (docName parent : String)
    (p : Node) (db2 : Db) (t : Int)
    (hpar : parent ≠ "") (hp : sqlFirst db parent = some p)
    (hplft : 0 < p.lft) (hplr : p.lft < p.rgt) (hpd : parent ≠ docName)
    (hok : update_add_node db docName parent = .ok (db2, t)) :
    t = p.rgt ∧
    sqlFirst db2 parent = some { p with rgt := p.rgt + 2 } ∧
    db2.length = db.length ∧
    (∀ i (h1 : i < db.length) (h2 : i < db2.length),
      (db2[i]).name = (db[i]).name ∧
      (db2[i]).parent = (db[i]).parent ∧
      ((db[i]).name = docName →
        (db2[i]).lft = t ∧ (db2[i]).rgt = t + 1) ∧
      ((db[i]).name ≠ docName →
        (db2[i]).lft =
          (if t ≤ (db[i]).lft then (db[i]).lft + 2 else (db[i]).lft) ∧
        (db2[i]).rgt =
          (if t ≤ (db[i]).rgt then (db[i]).rgt + 2 else (db[i]).rgt))) := by
  obtain ⟨hpmem, hpname⟩ := sqlFirst_mem_name hp
  rw [update_add_node_ok_iff] at hok
  obtain ⟨r0, hr0, ht, hocc, hdb2⟩ := hok
  have hr0p : r0 = p.rgt := by
    unfold addTarget at hr0
    rw [if_pos hpar, hp] at hr0
    cases hv : validate_loop db docName p.lft p.rgt with
    | error e => simp [hv] at hr0
    | ok u => simp [hv] at hr0; exact hr0.symm
  have htp : orOne r0 = p.rgt := by
    rw [hr0p, orOne, if_neg (by omega)]
  have htt : t = p.rgt := by rw [ht, htp]
  have hnamepres : ∀ n : Node,
      (((fun n : Node =>
          if (n.name == docName) = true then
            { n with lft := orOne r0, rgt := orOne r0 + 1 } else n) ∘
        (fun n : Node =>
          if decide (orOne r0 ≤ n.lft) = true then { n with lft := n.lft + 2 } else n) ∘
        (fun n : Node =>
          if decide (orOne r0 ≤ n.rgt) = true then { n with rgt := n.rgt + 2 } else n))
        n).name = n.name := by
    intro n
    simp only [Function.comp]
    split_ifs <;> rfl
  refine ⟨htt, ?_, ?_, ?_⟩
  · subst hdb2
    simp only [sqlUpdate, addWiden, List.map_map]
    rw [sqlFirst_map db parent _ hnamepres, hp]
    have hb : ¬ p.name = docName := by rw [hpname]; exact hpd
    simp [Function.comp, htp, hb, (show ¬ p.rgt ≤ p.lft from by omega), le_refl]
  · subst hdb2
    simp [sqlUpdate, addWiden]
  · intro i h1 h2
    subst hdb2
    simp only [sqlUpdate, addWiden, List.getElem_map]
    rw [ht]
    by_cases hm : (db[i]).name = docName <;>
      by_cases hc1 : orOne r0 ≤ (db[i]).rgt <;>
        by_cases hc2 : orOne r0 ≤ (db[i]).lft <;>
          simp [hc1, hc2, hm]

/-- Witness for C4 (amended) on the canonical fixture
`R(1,10) ⊃ {A(2,5) ⊃ a1(3,4), B(6,9) ⊃ b1(7,8)}` with pending row `C`:
inserting `C` under `B` targets `t = 9` and gives `B` width `+2`. -/
theorem insert_under_parent_characterized_witness :
    (9 : Int) = (Node.mk "B" "R" "" 6 9).rgt ∧
    sqlFirst [⟨"R", "", "", 1, 12⟩, ⟨"A", "R", "", 2, 5⟩, ⟨"B", "R", "", 6, 11⟩,
        ⟨"a1", "A", "", 3, 4⟩, ⟨"b1", "B", "", 7, 8⟩, ⟨"C", "B", "", 9, 10⟩] "B" =
      some { Node.mk "B" "R" "" 6 9 with rgt := (Node.mk "B" "R" "" 6 9).rgt + 2 } :=
  by
  have h := insert_under_parent_characterized
    [⟨"R", "", "", 1, 10⟩, ⟨"A", "R", "", 2, 5⟩, ⟨"B", "R", "", 6, 9⟩,
      ⟨"a1", "A", "", 3, 4⟩, ⟨"b1", "B", "", 7, 8⟩, ⟨"C", "B", "", 0, 0⟩]
    "C" "B" ⟨"B", "R", "", 6, 9⟩
    [⟨"R", "", "", 1, 12⟩, ⟨"A", "R", "", 2, 5⟩, ⟨"B", "R", "", 6, 11⟩,
      ⟨"a1", "A", "", 3, 4⟩, ⟨"b1", "B", "", 7, 8⟩, ⟨"C", "B", "", 9, 10⟩]
    9 (by decide) (by decide) (by decide) (by decide) (by decide) (by decide)
  exact ⟨h.1, h.2.1⟩

/-! ## C8 — ancestor/descendant queries: strict containment, `lft`
descending, limit -/

/-- C8: for a stored node, `get_ancestors_of` returns exactly the names of
the rows whose interval strictly contains the node's interval and
`get_descendants_of` exactly those strictly contained in it, both (at the
default ordering) listed by `lft` descending — nearest ancestor first —
and both truncated by the optional limit. -/
theorem tree_queries_characterized (db : Db) (name : String) (nd : Node)
    (hnd : sqlFirst db name = some nd) :
    ∃ anc desc, get_ancestors_of db name none = some anc ∧
      get_descendants_of db name none = some desc ∧
      (∀ s, s ∈ anc ↔ ∃ m ∈ db, m.name = s ∧ m.lft < nd.lft ∧ nd.rgt < m.rgt) ∧
      (∀ s, s ∈ desc ↔ ∃ m ∈ db, m.name = s ∧ nd.lft < m.lft ∧ m.rgt < nd.rgt) ∧
      (∃ la : List Node, anc = la.map (fun n => n.name) ∧
        la.Sorted (fun a b => b.lft ≤ a.lft)) ∧
      (∃ ld : List Node, desc = ld.map (fun n => n.name) ∧
        ld.Sorted (fun a b => b.lft ≤ a.lft)) ∧
      (∀ k, get_ancestors_of db name (some k) = some (anc.take k)) ∧
      (∀ k, get_descendants_of db name (some k) = some (desc.take k)) := by
  haveI : IsTotal Node (fun a b => b.lft ≤ a.lft) := ⟨fun a b => le_total b.lft a.lft⟩
  haveI : IsTrans Node (fun a b => b.lft ≤ a.lft) := ⟨fun _ _ _ h1 h2 => le_trans h2 h1⟩
  refine ⟨(List.insertionSort (fun a b : Node => b.lft ≤ a.lft)
      (db.filter (fun n => decide (n.lft < nd.lft) && decide (nd.rgt < n.rgt)))).map
        (fun n => n.name),
    (List.insertionSort (fun a b : Node => b.lft ≤ a.lft)
      (db.filter (fun n => decide (nd.lft < n.lft) && decide (n.rgt < nd.rgt)))).map
        (fun n => n.name),
    ?_, ?_, ?_, ?_, ⟨_, rfl, List.sorted_insertionSort _ _⟩,
    ⟨_, rfl, List.sorted_insertionSort _ _⟩, ?_, ?_⟩
  · simp [get_ancestors_of, hnd, applyLimit]
  · simp [get_descendants_of, hnd, applyLimit]
  · intro s
    constructor
    · intro hs
      obtain ⟨m, hm, rfl⟩ := List.mem_map.mp hs
      have hm2 := (List.perm_insertionSort
        (fun a b : Node => b.lft ≤ a.lft) _).mem_iff.mp hm
      obtain ⟨hmdb, hconds⟩ := List.mem_filter.mp hm2
      refine ⟨m, hmdb, rfl, ?_, ?_⟩ <;> simp at hconds <;> omega
    · rintro ⟨m, hmdb, rfl, h1, h2⟩
      refine List.mem_map.mpr ⟨m, ?_, rfl⟩
      refine (List.perm_insertionSort
        (fun a b : Node => b.lft ≤ a.lft) _).mem_iff.mpr ?_
      exact List.mem_filter.mpr ⟨hmdb, by simp [h1, h2]⟩
  · intro s
    constructor
    · intro hs
      obtain ⟨m, hm, rfl⟩ := List.mem_map.mp hs
      have hm2 := (List.perm_insertionSort
        (fun a b : Node => b.lft ≤ a.lft) _).mem_iff.mp hm
      obtain ⟨hmdb, hconds⟩ := List.mem_filter.mp hm2
      refine ⟨m, hmdb, rfl, ?_, ?_⟩ <;> simp at hconds <;> omega
    · rintro ⟨m, hmdb, rfl, h1, h2⟩
      refine List.mem_map.mpr ⟨m, ?_, rfl⟩
      refine (List.perm_insertionSort
        (fun a b : Node => b.lft ≤ a.lft) _).mem_iff.mpr ?_
      exact List.mem_filter.mpr ⟨hmdb, by simp [h1, h2]⟩
  · intro k
    simp [get_ancestors_of, hnd, applyLimit]
  · intro k
    simp [get_descendants_of, hnd, applyLimit]

/-- Witness for C8: on the tree
`R(1,12) ⊃ {B(6,11) ⊃ {b1(7,8), C(9,10)}, A(2,5) ⊃ a1(3,4)}`, the
descendants of `B` by `lft` descending are `["C", "b1"]`, and limit 1
truncates to `["C"]`. -/
theorem tree_queries_characterized_witness :
    get_descendants_of
      [⟨"R", "", "", 1, 12⟩, ⟨"A", "R", "", 2, 5⟩, ⟨"a1", "A", "", 3, 4⟩,
        ⟨"B", "R", "", 6, 11⟩, ⟨"b1", "B", "", 7, 8⟩, ⟨"C", "B", "", 9, 10⟩]
      "B" (some 1) = some (["C", "b1"].take 1) := by
  obtain ⟨anc, desc, ha, hd, hmema, hmemd, hsa, hsd, hta, htd⟩ :=
    tree_queries_characterized
      [⟨"R", "", "", 1, 12⟩, ⟨"A", "R", "", 2, 5⟩, ⟨"a1", "A", "", 3, 4⟩,
        ⟨"B", "R", "", 6, 11⟩, ⟨"b1", "B", "", 7, 8⟩, ⟨"C", "B", "", 9, 10⟩]
      "B" ⟨"B", "R", "", 6, 11⟩ (by decide)
  have hdesc : desc = ["C", "b1"] := by
    have : get_descendants_of
        [⟨"R", "", "", 1, 12⟩, ⟨"A", "R", "", 2, 5⟩, ⟨"a1", "A", "", 3, 4⟩,
          ⟨"B", "R", "", 6, 11⟩, ⟨"b1", "B", "", 7, 8⟩, ⟨"C", "B", "", 9, 10⟩]
        "B" none = some ["C", "b1"] := by decide
    exact (Option.some.inj (hd.symm.trans this))
  rw [← hdesc]
  exact htd 1

/-! ## C9 — the `update_nsm` dispatch -/

/-- A row found by name in the table just updated with
`old_parent := v` for that name carries `old_parent = v`. -/
theorem sqlFirst_old_parent_update (dbm : Db) (s v : String) (d : Node)
    (h : sqlFirst (sqlUpdate (fun n => n.name == s)
        (fun n => { n with old_parent := v }) dbm) s = some d) :
    d.old_parent = v := by
  rw [sqlUpdate, sqlFirst_map _ _ _ (by intro n; split_ifs <;> rfl)] at h
  cases hq : sqlFirst dbm s with
  | none => rw [hq] at h; cases h
  | some q =>
    rw [hq] at h
    obtain ⟨_, hqname⟩ := sqlFirst_mem_name hq
    have h2 : (if (q.name == s) = true then { q with old_parent := v } else q) = d :=
      Option.some.inj h
    rw [if_pos (by simp [hqname])] at h2
    rw [← h2]

/-- C9: `update_nsm` dispatches exactly as specified — both bounds unset
(Python-falsy, `0`) calls the inserter with the declared parent; otherwise
a declared parent different from the recorded previous parent calls the
relocator; otherwise no structural change happens — and in every case
(including the no-op branch) it then records the declared parent in the
row's `old_parent` column and reloads the document from the store, so the
returned document carries the stored bounds and
`old_parent = doc.parent`. -/
theorem update_nsm_dispatch (db : Db) (doc : Node) (db2 : Db) (doc2 : Node)
    (hok : update_nsm db doc = .ok (db2, doc2)) :
    ((doc.lft = 0 ∧ doc.rgt = 0) →
      ∃ dbm t, update_add_node db doc.name doc.parent = .ok (dbm, t) ∧
        db2 = sqlUpdate (fun n => n.name == doc.name)
          (fun n => { n with old_parent := doc.parent }) dbm) ∧
    (¬ (doc.lft = 0 ∧ doc.rgt = 0) → doc.old_parent ≠ doc.parent →
      ∃ dbm, update_move_node db doc doc.parent = .ok dbm ∧
        db2 = sqlUpdate (fun n => n.name == doc.name)
          (fun n => { n with old_parent := doc.parent }) dbm) ∧
    (¬ (doc.lft = 0 ∧ doc.rgt = 0) → doc.old_parent = doc.parent →
      db2 = sqlUpdate (fun n => n.name == doc.name)
        (fun n => { n with old_parent := doc.parent }) db) ∧
    sqlFirst db2 doc.name = some doc2 ∧
    doc2.old_parent = doc.parent := by
  unfold update_nsm at hok
  by_cases h1 : doc.lft = 0 ∧ doc.rgt = 0
  · rw [if_pos h1] at hok
    cases ha : update_add_node db doc.name doc.parent with
    | error e => rw [ha] at hok; simp at hok
    | ok pr =>
      obtain ⟨dbm, t⟩ := pr
      rw [ha] at hok
      simp only [] at hok
      cases hf : sqlFirst (sqlUpdate (fun n => n.name == doc.name)
          (fun n => { n with old_parent := doc.parent }) dbm) doc.name with
      | none => rw [hf] at hok; simp at hok
      | some d =>
        rw [hf] at hok
        simp only [Except.ok.injEq, Prod.mk.injEq] at hok
        obtain ⟨hdb2, hdoc2⟩ := hok
        subst hdb2
        subst hdoc2
        exact ⟨fun _ => ⟨dbm, t, rfl, rfl⟩, fun h => absurd h1 h,
          fun h => absurd h1 h, hf, sqlFirst_old_parent_update dbm _ _ _ hf⟩
  · rw [if_neg h1] at hok
    by_cases h2 : doc.old_parent ≠ doc.parent
    · rw [if_pos h2] at hok
      cases hm : update_move_node db doc doc.parent with
      | error e => rw [hm] at hok; simp at hok
      | ok dbm =>
        rw [hm] at hok
        simp only [] at hok
        cases hf : sqlFirst (sqlUpdate (fun n => n.name == doc.name)
            (fun n => { n with old_parent := doc.parent }) dbm) doc.name with
        | none => rw [hf] at hok; simp at hok
        | some d =>
          rw [hf] at hok
          simp only [Except.ok.injEq, Prod.mk.injEq] at hok
          obtain ⟨hdb2, hdoc2⟩ := hok
          subst hdb2
          subst hdoc2
          exact ⟨fun h => absurd h h1, fun _ _ => ⟨dbm, rfl, rfl⟩,
            fun _ h => absurd h h2, hf, sqlFirst_old_parent_update dbm _ _ _ hf⟩
    · rw [if_neg h2] at hok
      simp only [] at hok
      cases hf : sqlFirst (sqlUpdate (fun n => n.name == doc.name)
          (fun n => { n with old_parent := doc.parent }) db) doc.name with
      | none => rw [hf] at hok; simp at hok
      | some d =>
        rw [hf] at hok
        simp only [Except.ok.injEq, Prod.mk.injEq] at hok
        obtain ⟨hdb2, hdoc2⟩ := hok
        subst hdb2
        subst hdoc2
        exact ⟨fun h => absurd h h1, fun _ hne => absurd hne h2,
          fun _ _ => rfl, hf, sqlFirst_old_parent_update db _ _ _ hf⟩

/-- Witness for C9 on the canonical fixture: the first synchronization of
the pending row `C` (bounds `(0, 0)`, parent `B`) inserts it, records
`old_parent = "B"`, and reloads it with the stored bounds `(9, 10)`. -/
theorem update_nsm_dispatch_witness :
    sqlFirst [⟨"R", "", "", 1, 12⟩, ⟨"A", "R", "", 2, 5⟩, ⟨"B", "R", "", 6, 11⟩,
        ⟨"a1", "A", "", 3, 4⟩, ⟨"b1", "B", "", 7, 8⟩, ⟨"C", "B", "B", 9, 10⟩] "C" =
      some ⟨"C", "B", "B", 9, 10⟩ ∧
    (Node.mk "C" "B" "B" 9 10).old_parent = "B" := by
  have h := update_nsm_dispatch
    [⟨"R", "", "", 1, 10⟩, ⟨"A", "R", "", 2, 5⟩, ⟨"B", "R", "", 6, 9⟩,
      ⟨"a1", "A", "", 3, 4⟩, ⟨"b1", "B", "", 7, 8⟩, ⟨"C", "B", "", 0, 0⟩]
    ⟨"C", "B", "", 0, 0⟩
    [⟨"R", "", "", 1, 12⟩, ⟨"A", "R", "", 2, 5⟩, ⟨"B", "R", "", 6, 11⟩,
      ⟨"a1", "A", "", 3, 4⟩, ⟨"b1", "B", "", 7, 8⟩, ⟨"C", "B", "B", 9, 10⟩]
    ⟨"C", "B", "B", 9, 10⟩ (by decide)
  exact ⟨h.2.2.2.1, h.2.2.2.2⟩

/-! ## C10 — self-parenting is rejected by the non-strict containment
check even though a node is not strictly its own descendant -/

/-- C10: with `parent = doc.name`, the first row named `doc.name`
(non-strictly) contains its own bounds, so `validate_loop` — which uses
`lft <=` and `rgt >=` — fires before any `UPDATE`, and `update_move_node`
raises `NestedSetRecursionError` leaving the table unchanged. -/
theorem self_parent_rejected (db : Db) (doc q : Node)
    (hname : doc.name ≠ "") (hq : sqlFirst db doc.name = some q) :
    update_move_node db doc doc.name = .error .recursionError := by
  obtain ⟨hqmem, hqname⟩ := sqlFirst_mem_name hq
  have hv := validate_loop_error_of_mem db doc.name q.lft q.rgt q hqmem hqname
    le_rfl le_rfl
  simp [update_move_node, hname, hq, hv]

/-- Witness for C10: a single root re-parented to itself. -/
theorem self_parent_rejected_witness :
    update_move_node [⟨"A", "", "", 1, 2⟩] ⟨"A", "A", "", 1, 2⟩ "A" =
      .error .recursionError :=
  self_parent_rejected [⟨"A", "", "", 1, 2⟩] ⟨"A", "A", "", 1, 2⟩ ⟨"A", "", "", 1, 2⟩
    (by decide) (by decide)

/-! ## C1 — a move translates the whole detached subtree rigidly -/

/-- Row `n` lies in the subtree spanned by the in-memory bounds of the
document being moved (the detach predicate of nestedset.py:105). -/
def inSubtree (doc n : Node) : Prop := doc.lft ≤ n.lft ∧ n.rgt ≤ doc.rgt

instance (doc n : Node) : Decidable (inSubtree doc n) := by
  unfold inSubtree
  infer_instance

/-- Pointwise effect, on a subtree row, of the full
detach / compact / make-room / reattach pipeline of `update_move_node`
when a new parent exists: with the row's bounds positive, inside
`[doc.lft, doc.rgt]`, not named `parent`, and the re-read parent's `rgt`
positive, the row is exactly translated by `nd`. -/
theorem move_pointwise_parent (db : Db) (doc np : Node) (parent : String) (nd : Int)
    (i : Nat) (h1 : i < db.length)
    (hsub : inSubtree doc (db[i]))
    (hnl : 0 < (db[i]).lft) (hnr : 0 < (db[i]).rgt)
    (hname : ¬ (db[i]).name = parent)
    (hdl : 0 < doc.lft) (hdlr : doc.lft ≤ doc.rgt) (hnp : 0 < np.rgt)
    (h2 : i < (reattach nd (moveMakeRoom doc parent np
      (moveCompact doc (moveDetach doc db)))).length) :
    (reattach nd (moveMakeRoom doc parent np
        (moveCompact doc (moveDetach doc db))))[i] =
      { db[i] with lft := (db[i]).lft + nd, rgt := (db[i]).rgt + nd } := by
  obtain ⟨hs1, hs2⟩ := hsub
  simp only [reattach, moveMakeRoom, moveCompact, moveDetach, sqlUpdate,
    List.getElem_map]
  simp [hs1, hs2, hname,
    (show ¬ doc.rgt < -(db[i]).lft from by omega),
    (show ¬ doc.rgt < -(db[i]).rgt from by omega),
    (show ¬ np.rgt < -(db[i]).lft from by omega),
    (show ¬ np.rgt < -(db[i]).rgt from by omega),
    (show -(db[i]).lft < 0 from by omega)]

/-- Pointwise effect on a subtree row of detach / compact / reattach when
the move makes the subtree a new root. -/
theorem move_pointwise_root (db : Db) (doc : Node) (nd : Int)
    (i : Nat) (h1 : i < db.length)
    (hsub : inSubtree doc (db[i]))
    (hnl : 0 < (db[i]).lft) (hnr : 0 < (db[i]).rgt)
    (hdl : 0 < doc.lft) (hdlr : doc.lft ≤ doc.rgt)
    (h2 : i < (reattach nd (moveCompact doc (moveDetach doc db))).length) :
    (reattach nd (moveCompact doc (moveDetach doc db)))[i] =
      { db[i] with lft := (db[i]).lft + nd, rgt := (db[i]).rgt + nd } := by
  obtain ⟨hs1, hs2⟩ := hsub
  simp only [reattach, moveCompact, moveDetach, sqlUpdate, List.getElem_map]
  simp [hs1, hs2,
    (show ¬ doc.rgt < -(db[i]).lft from by omega),
    (show ¬ doc.rgt < -(db[i]).rgt from by omega),
    (show -(db[i]).lft < 0 from by omega)]

/-- After detach and compaction, the row `update_move_node` re-reads as
the new parent still has a strictly positive `rgt` (it is outside the
detached — negated — subtree, and compaction subtracts at most the
subtree width from bounds that were strictly beyond it). -/
theorem compact_first_rgt_pos (db : Db) (doc : Node) (parent : String)
    (hpos : ∀ n ∈ db, 0 < n.lft ∧ n.lft ≤ n.rgt)
    (hdl : 0 < doc.lft) (hdlr : doc.lft ≤ doc.rgt)
    (hpar : ∀ n ∈ db, inSubtree doc n → n.name ≠ parent)
    (np : Node)
    (hnp : sqlFirst (moveCompact doc (moveDetach doc db)) parent = some np) :
    0 < np.rgt := by
  simp only [moveCompact, moveDetach, sqlUpdate] at hnp
  rw [sqlFirst_map _ _ _ (by intro n; split_ifs <;> rfl)] at hnp
  rw [sqlFirst_map _ _ _ (by intro n; split_ifs <;> rfl)] at hnp
  rw [sqlFirst_map _ _ _ (by intro n; split_ifs <;> rfl)] at hnp
  cases hp : sqlFirst db parent with
  | none => rw [hp] at hnp; cases hnp
  | some p =>
    rw [hp] at hnp
    obtain ⟨hpmem, hpname⟩ := sqlFirst_mem_name hp
    obtain ⟨hpl, hplr⟩ := hpos p hpmem
    have hnsub : doc.lft ≤ p.lft → ¬ p.rgt ≤ doc.rgt := by
      intro hA hB
      exact hpar p hpmem ⟨hA, hB⟩ hpname
    simp only [Option.map_some'] at hnp
    have hh := Option.some.inj hnp
    rw [← hh]
    by_cases hshift : doc.rgt < p.lft
    · simp [hshift, (show ¬ p.rgt ≤ doc.rgt from by omega),
        (show ¬ p.lft - (doc.rgt - doc.lft + 1) < doc.lft from by omega)]
      omega
    · by_cases hA : doc.lft ≤ p.lft
      · have hB := hnsub hA
        simp [hshift, hA, hB, (show ¬ p.lft < doc.lft from by omega)]
        omega
      · by_cases hC : doc.rgt < p.rgt
        · simp [hshift, hA, (show p.lft < doc.lft from by omega), hC]
          omega
        · simp [hshift, hA, (show p.lft < doc.lft from by omega), hC]
          omega

/-- C1: if a move succeeds then there is a single offset `t` such that
every row of the moved subtree (every row whose interval lies within the
document's in-memory `[lft, rgt]`) is translated by exactly `t` on both
bounds, keeping its name: the reattach step maps each detached (negated)
row by `lft = -lft + newDiff`, `rgt = -rgt + newDiff`, a pure translation,
so all offsets `(D.lft - subtree.lft, D.rgt - subtree.lft)` within the
subtree are identical before and after the move. -/
theorem move_preserves_subtree_shape (db db2 : Db) (doc : Node) (parent : String)
    (hok : update_move_node db doc parent = .ok db2)
    (hpos : ∀ n ∈ db, 0 < n.lft ∧ n.lft ≤ n.rgt)
    (hdl : 0 < doc.lft) (hdlr : doc.lft ≤ doc.rgt)
    (hpar : ∀ n ∈ db, inSubtree doc n → n.name ≠ parent) :
    db2.length = db.length ∧
    ∃ t : Int, ∀ i (h1 : i < db.length) (h2 : i < db2.length),
      inSubtree doc (db[i]) →
      (db2[i]).name = (db[i]).name ∧
      (db2[i]).lft = (db[i]).lft + t ∧
      (db2[i]).rgt = (db[i]).rgt + t := by
  unfold update_move_node at hok
  by_cases hpe : parent ≠ ""
  · rw [if_pos hpe] at hok
    cases hp0 : sqlFirst db parent with
    | none => rw [hp0] at hok; simp at hok
    | some p0 =>
      rw [hp0] at hok
      simp only [] at hok
      cases hv : validate_loop db doc.name p0.lft p0.rgt with
      | error e => rw [hv] at hok; simp at hok
      | ok u =>
        rw [hv] at hok
        simp only [] at hok
        rw [if_pos hpe] at hok
        cases hnp : sqlFirst (moveCompact doc (moveDetach doc db)) parent with
        | none => rw [hnp] at hok; simp at hok
        | some np =>
          rw [hnp] at hok
          simp only [Except.ok.injEq] at hok
          subst hok
          have hnppos : 0 < np.rgt :=
            compact_first_rgt_pos db doc parent hpos hdl hdlr hpar np hnp
          constructor
          · simp [reattach, moveMakeRoom, moveCompact, moveDetach, sqlUpdate]
          · refine ⟨np.rgt - doc.lft, ?_⟩
            intro i h1 h2 hsub
            rw [move_pointwise_parent db doc np parent (np.rgt - doc.lft) i h1 hsub
              (hpos _ (List.getElem_mem h1)).1
              (by have := hpos _ (List.getElem_mem h1); omega)
              (hpar _ (List.getElem_mem h1) hsub) hdl hdlr hnppos h2]
            exact ⟨rfl, rfl, rfl⟩
  · rw [if_neg hpe] at hok
    simp only [] at hok
    rw [if_neg hpe] at hok
    cases hmax : ((moveCompact doc (moveDetach doc db)).map (fun n => n.rgt)).max? with
    | none => rw [hmax] at hok; simp at hok
    | some maxRgt =>
      rw [hmax] at hok
      simp only [Except.ok.injEq] at hok
      subst hok
      constructor
      · simp [reattach, moveCompact, moveDetach, sqlUpdate]
      · refine ⟨maxRgt + 1 - doc.lft, ?_⟩
        intro i h1 h2 hsub
        rw [move_pointwise_root db doc (maxRgt + 1 - doc.lft) i h1 hsub
          (hpos _ (List.getElem_mem h1)).1
          (by have := hpos _ (List.getElem_mem h1); omega) hdl hdlr h2]
        exact ⟨rfl, rfl, rfl⟩

/-- Witness for C1 on the tree
`R(1,12) ⊃ {A(2,5) ⊃ a1(3,4), B(6,11) ⊃ {b1(7,8), C(9,10)}}`: moving
`A(2,5)` under `B` succeeds, and the subtree rows `A` and `a1` are both
translated by the same offset. -/
theorem move_preserves_subtree_shape_witness :
    update_move_node
        [⟨"R", "", "", 1, 12⟩, ⟨"A", "R", "", 2, 5⟩, ⟨"a1", "A", "", 3, 4⟩,
          ⟨"B", "R", "", 6, 11⟩, ⟨"b1", "B", "", 7, 8⟩, ⟨"C", "B", "", 9, 10⟩]
        ⟨"A", "B", "", 2, 5⟩ "B" =
      .ok [⟨"R", "", "", 1, 12⟩, ⟨"A", "R", "", 7, 10⟩, ⟨"a1", "A", "", 8, 9⟩,
        ⟨"B", "R", "", 2, 11⟩, ⟨"b1", "B", "", 3, 4⟩, ⟨"C", "B", "", 5, 6⟩] ∧
    ([⟨"R", "", "", 1, 12⟩, ⟨"A", "R", "", 7, 10⟩, ⟨"a1", "A", "", 8, 9⟩,
        ⟨"B", "R", "", 2, 11⟩, ⟨"b1", "B", "", 3, 4⟩, ⟨"C", "B", "", 5, 6⟩] : Db).length =
      ([⟨"R", "", "", 1, 12⟩, ⟨"A", "R", "", 2, 5⟩, ⟨"a1", "A", "", 3, 4⟩,
        ⟨"B", "R", "", 6, 11⟩, ⟨"b1", "B", "", 7, 8⟩, ⟨"C", "B", "", 9, 10⟩] : Db).length :=
  ⟨by decide,
    (move_preserves_subtree_shape
      [⟨"R", "", "", 1, 12⟩, ⟨"A", "R", "", 2, 5⟩, ⟨"a1", "A", "", 3, 4⟩,
        ⟨"B", "R", "", 6, 11⟩, ⟨"b1", "B", "", 7, 8⟩, ⟨"C", "B", "", 9, 10⟩]
      [⟨"R", "", "", 1, 12⟩, ⟨"A", "R", "", 7, 10⟩, ⟨"a1", "A", "", 8, 9⟩,
        ⟨"B", "R", "", 2, 11⟩, ⟨"b1", "B", "", 3, 4⟩, ⟨"C", "B", "", 5, 6⟩]
      ⟨"A", "B", "", 2, 5⟩ "B" (by decide) (by decide) (by decide) (by decide)
      (by decide)).1⟩

/-! ## Rebuild infrastructure: the key order and skeleton preservation -/

/-- Cons unfolding of the lexicographic comparison. -/
theorem lexLe_cons (a b : Char) (as bs : List Char) :
    lexLe (a :: as) (b :: bs) = true ↔ (a < b ∨ (a = b ∧ lexLe as bs = true)) := by
  simp only [lexLe]
  rcases lt_trichotomy a b with h | h | h
  · simp [h]
  · simp [h, lt_irrefl]
  · simp [lt_asymm h, (ne_of_lt h).symm]

/-- The key order is total. -/
theorem lexLe_total : ∀ as bs, lexLe as bs = true ∨ lexLe bs as = true
  | [], _ => by simp [lexLe]
  | _ :: _, [] => by simp [lexLe]
  | a :: as, b :: bs => by
    rw [lexLe_cons, lexLe_cons]
    rcases lt_trichotomy a b with h | h | h
    · exact Or.inl (Or.inl h)
    · rcases lexLe_total as bs with h2 | h2
      · exact Or.inl (Or.inr ⟨h, h2⟩)
      · exact Or.inr (Or.inr ⟨h.symm, h2⟩)
    · exact Or.inr (Or.inl h)

/-- The key order is transitive. -/
theorem lexLe_trans : ∀ as bs cs,
    lexLe as bs = true → lexLe bs cs = true → lexLe as cs = true
  | [], _, _ => by simp [lexLe]
  | _ :: _, [], _ => by simp [lexLe]
  | _ :: _, _ :: _, [] => by simp [lexLe]
  | a :: as, b :: bs, c :: cs => by
    rw [lexLe_cons, lexLe_cons, lexLe_cons]
    rintro (h1 | ⟨rfl, h1⟩) (h2 | ⟨rfl, h2⟩)
    · exact Or.inl (lt_trans h1 h2)
    · exact Or.inl h1
    · exact Or.inl h2
    · exact Or.inr ⟨rfl, lexLe_trans as bs cs h1 h2⟩

/-- Two tables of the same shape: same length, and rows agreeing on every
field except the interval bounds.  `rebuild_tree` only ever rewrites
bounds, so it preserves this relation. -/
def Skel (db1 db2 : Db) : Prop :=
  List.Forall₂ (fun a b => a.name = b.name ∧ a.parent = b.parent ∧
    a.old_parent = b.old_parent) db1 db2

theorem skel_refl (db : Db) : Skel db db :=
  List.forall₂_same.mpr (fun _ _ => ⟨rfl, rfl, rfl⟩)

theorem skel_trans {d1 d2 d3 : Db} (h1 : Skel d1 d2) (h2 : Skel d2 d3) :
    Skel d1 d3 := by
  induction h1 generalizing d3 with
  | nil => cases h2; exact List.Forall₂.nil
  | cons hab h ih =>
    cases h2 with
    | cons hbc h2 =>
      exact List.Forall₂.cons
        ⟨hab.1.trans hbc.1, hab.2.1.trans hbc.2.1, hab.2.2.trans hbc.2.2⟩ (ih h2)

theorem skel_length {d1 d2 : Db} (h : Skel d1 d2) : d1.length = d2.length :=
  h.length_eq

theorem skel_get {d1 d2 : Db} (h : Skel d1 d2) (i : Nat)
    (h1 : i < d1.length) (h2 : i < d2.length) :
    (d1[i]).name = (d2[i]).name ∧ (d1[i]).parent = (d2[i]).parent ∧
      (d1[i]).old_parent = (d2[i]).old_parent := by
  have := (List.forall₂_iff_get.mp h).2 i h1 h2
  simpa using this

/-- A map that only touches bounds preserves the skeleton. -/
theorem skel_map (g : Node → Node)
    (hg : ∀ n, (g n).name = n.name ∧ (g n).parent = n.parent ∧
      (g n).old_parent = n.old_parent) (db : Db) :
    Skel db (db.map g) := by
  induction db with
  | nil => exact List.Forall₂.nil
  | cons a l ih =>
    exact List.Forall₂.cons ⟨(hg a).1.symm, (hg a).2.1.symm, (hg a).2.2.symm⟩ ih

/-- The bound-setting update of `rebuild_node` preserves the skeleton. -/
theorem skel_rebuild_update (p : String) (l r : Int) (db : Db) :
    Skel db (sqlUpdate (fun n => n.name == p)
      (fun n => { n with lft := l, rgt := r }) db) := by
  unfold sqlUpdate
  refine skel_map _ (fun n => ?_) db
  split_ifs <;> exact ⟨rfl, rfl, rfl⟩

/-- Tables with the same skeleton enumerate the same children. -/
theorem childNames_eq_of_skel {d1 d2 : Db} (h : Skel d1 d2) (p : String) :
    childNames d1 p = childNames d2 p := by
  induction h with
  | nil => rfl
  | cons hab h ih =>
    simp only [childNames, List.filter_cons] at ih ⊢
    obtain ⟨hn, hp, _⟩ := hab
    rw [hp]
    split
    · simp only [List.map_cons]
      rw [hn]
      congr 1
    · exact ih

/-- Tables with the same skeleton have the same sorted root list. -/
theorem rootNames_eq_of_skel {d1 d2 : Db} (h : Skel d1 d2) :
    rootNames d1 = rootNames d2 := by
  unfold rootNames
  congr 1
  induction h with
  | nil => rfl
  | cons hab h ih =>
    simp only [List.filter_cons]
    obtain ⟨hn, hp, _⟩ := hab
    rw [hp]
    split
    · simp [hn, ih]
    · exact ih

/-- Joint statement: `rebuild_node` and `rebuild_children` preserve the
skeleton of the table (they only rewrite bounds). -/
theorem rebuild_skel (fuel : Nat) :
    (∀ db p l db2 r2, rebuild_node fuel db p l = some (db2, r2) → Skel db db2) ∧
    (∀ db cs r db2 r2, rebuild_children fuel db cs r = some (db2, r2) →
      Skel db db2) := by
  induction fuel with
  | zero =>
    constructor
    · intro db p l db2 r2 h
      simp [rebuild_node] at h
    · intro db cs r db2 r2 h
      cases cs with
      | nil =>
        simp only [rebuild_children, Option.some.injEq, Prod.mk.injEq] at h
        rw [← h.1]
        exact skel_refl db
      | cons c rest => simp [rebuild_children] at h
  | succ fuel ih =>
    constructor
    · intro db p l db2 r2 h
      simp only [rebuild_node] at h
      cases hc : rebuild_children fuel db (childNames db p) (l + 1) with
      | none => rw [hc] at h; cases h
      | some pr =>
        obtain ⟨dbc, right⟩ := pr
        rw [hc] at h
        simp only [Option.some.injEq, Prod.mk.injEq] at h
        rw [← h.1]
        exact skel_trans (ih.2 db _ _ dbc right hc) (skel_rebuild_update p l right dbc)
    · intro db cs r db2 r2 h
      cases cs with
      | nil =>
        simp only [rebuild_children, Option.some.injEq, Prod.mk.injEq] at h
        rw [← h.1]
        exact skel_refl db
      | cons c rest =>
        simp only [rebuild_children] at h
        cases hn : rebuild_node fuel db c r with
        | none => rw [hn] at h; cases h
        | some pr =>
          obtain ⟨dbm, rm⟩ := pr
          rw [hn] at h
          exact skel_trans (ih.1 db c r dbm rm hn) (ih.2 dbm rest rm db2 r2 h)

/-- Joint statement: the counter advances (by at least 2 for a node call),
and every row either keeps its bounds or receives bounds inside the
interval consumed by the call — the nesting at the heart of the Euler-tour
numbering.  Also records that the row count is unchanged. -/
theorem rebuild_range (fuel : Nat) :
    (∀ db p l db2 r2, rebuild_node fuel db p l = some (db2, r2) →
      db2.length = db.length ∧ l + 2 ≤ r2 ∧
      ∀ i (h1 : i < db.length) (h2 : i < db2.length),
        (db2[i] = db[i]) ∨
        (l ≤ (db2[i]).lft ∧ (db2[i]).lft < (db2[i]).rgt ∧
          (db2[i]).rgt ≤ r2 - 1)) ∧
    (∀ db cs r db2 r2, rebuild_children fuel db cs r = some (db2, r2) →
      db2.length = db.length ∧ r ≤ r2 ∧
      ∀ i (h1 : i < db.length) (h2 : i < db2.length),
        (db2[i] = db[i]) ∨
        (r ≤ (db2[i]).lft ∧ (db2[i]).lft < (db2[i]).rgt ∧
          (db2[i]).rgt ≤ r2 - 1)) := by
  induction fuel with
  | zero =>
    constructor
    · intro db p l db2 r2 h
      simp [rebuild_node] at h
    · intro db cs r db2 r2 h
      cases cs with
      | nil =>
        simp only [rebuild_children, Option.some.injEq, Prod.mk.injEq] at h
        obtain ⟨rfl, rfl⟩ := h
        exact ⟨rfl, le_refl r, fun i h1 h2 => Or.inl rfl⟩
      | cons c rest => simp [rebuild_children] at h
  | succ fuel ih =>
    constructor
    · intro db p l db2 r2 h
      simp only [rebuild_node] at h
      cases hc : rebuild_children fuel db (childNames db p) (l + 1) with
      | none => rw [hc] at h; cases h
      | some pr =>
        obtain ⟨dbc, right⟩ := pr
        rw [hc] at h
        simp only [Option.some.injEq, Prod.mk.injEq] at h
        obtain ⟨hdb2, hr2⟩ := h
        obtain ⟨hlen, hmono, hrows⟩ := ih.2 db _ _ dbc right hc
        subst hdb2
        subst hr2
        refine ⟨by simpa [length_sqlUpdate] using hlen, by omega, ?_⟩
        intro i h1 h2
        have hci : i < dbc.length := by
          rw [hlen]
          exact h1
        rw [getElem_sqlUpdate _ _ _ i hci h2]
        by_cases hb : ((dbc[i]).name == p) = true
        · rw [if_pos hb]
          right
          constructor
          · simp
          · simp
            omega
        · rw [if_neg hb]
          rcases hrows i h1 hci with heq | hin
          · exact Or.inl heq
          · right
            refine ⟨by omega, by omega, by omega⟩
    · intro db cs r db2 r2 h
      cases cs with
      | nil =>
        simp only [rebuild_children, Option.some.injEq, Prod.mk.injEq] at h
        obtain ⟨rfl, rfl⟩ := h
        exact ⟨rfl, le_refl r, fun i h1 h2 => Or.inl rfl⟩
      | cons c rest =>
        simp only [rebuild_children] at h
        cases hn : rebuild_node fuel db c r with
        | none => rw [hn] at h; cases h
        | some pr =>
          obtain ⟨dbm, rm⟩ := pr
          rw [hn] at h
          obtain ⟨hlen1, hmono1, hrows1⟩ := ih.1 db c r dbm rm hn
          obtain ⟨hlen2, hmono2, hrows2⟩ := ih.2 dbm rest rm db2 r2 h
          refine ⟨by omega, by omega, ?_⟩
          intro i h1 h2
          have hmi : i < dbm.length := by omega
          rcases hrows2 i hmi h2 with heq2 | hin2
          · rcases hrows1 i h1 hmi with heq1 | hin1
            · exact Or.inl (heq2.trans heq1)
            · rw [heq2]
              right
              refine ⟨by omega, by omega, by omega⟩
          · right
            refine ⟨by omega, by omega, by omega⟩

/-- After `rebuild_node db p l` returns `(db2, r2)`, every row named `p`
carries exactly the interval `(l, r2 - 1)`: `lft` was assigned from the
counter on entry and `rgt` from the counter after the children. -/
theorem rebuild_node_sets_parent (fuel : Nat) (db : Db) (p : String) (l : Int)
    (db2 : Db) (r2 : Int) (h : rebuild_node fuel db p l = some (db2, r2)) :
    ∀ i (h2 : i < db2.length), (db2[i]).name = p →
      (db2[i]).lft = l ∧ (db2[i]).rgt = r2 - 1 := by
  cases fuel with
  | zero => simp [rebuild_node] at h
  | succ fuel =>
    simp only [rebuild_node] at h
    cases hc : rebuild_children fuel db (childNames db p) (l + 1) with
    | none => rw [hc] at h; cases h
    | some pr =>
      obtain ⟨dbc, right⟩ := pr
      rw [hc] at h
      simp only [Option.some.injEq, Prod.mk.injEq] at h
      obtain ⟨hdb2, hr2⟩ := h
      subst hdb2
      subst hr2
      intro i h2 hname
      have hci : i < dbc.length := by
        have := length_sqlUpdate (fun n => n.name == p)
          (fun n => { n with lft := l, rgt := right }) dbc
        omega
      rw [getElem_sqlUpdate _ _ _ i hci h2] at hname ⊢
      by_cases hb : ((dbc[i]).name == p) = true
      · rw [if_pos hb]
        refine ⟨rfl, ?_⟩
        show right = right + 1 - 1
        omega
      · rw [if_neg hb] at hname
        rw [hname] at hb
        simp at hb

theorem skel_symm {d1 d2 : Db} (h : Skel d1 d2) : Skel d2 d1 := by
  induction h with
  | nil => exact List.Forall₂.nil
  | cons hab h ih =>
    exact List.Forall₂.cons ⟨hab.1.symm, hab.2.1.symm, hab.2.2.symm⟩ ih

/-- Two rows agreeing on every field are equal. -/
theorem node_eq_of_fields {a b : Node} (h1 : a.name = b.name)
    (h2 : a.parent = b.parent) (h3 : a.old_parent = b.old_parent)
    (h4 : a.lft = b.lft) (h5 : a.rgt = b.rgt) : a = b := by
  cases a
  cases b
  simp_all

/-- The hypotheses "every row named `c` is a root" and "no row has an
empty name" transfer along a skeleton equality. -/
theorem ok_of_skel {d1 d2 : Db} (h : Skel d1 d2) (c : String)
    (hc : ∀ n ∈ d1, n.name = c → n.parent = "")
    (hne : ∀ n ∈ d1, n.name ≠ "") :
    (∀ n ∈ d2, n.name = c → n.parent = "") ∧ (∀ n ∈ d2, n.name ≠ "") := by
  constructor
  · intro n hn hname
    obtain ⟨i, h2, rfl⟩ := List.getElem_of_mem hn
    have h1 : i < d1.length := by rw [skel_length h]; exact h2
    obtain ⟨heqn, heqp, _⟩ := skel_get h i h1 h2
    rw [← heqp]
    exact hc _ (List.getElem_mem h1) (by rw [heqn]; exact hname)
  · intro n hn
    obtain ⟨i, h2, rfl⟩ := List.getElem_of_mem hn
    have h1 : i < d1.length := by rw [skel_length h]; exact h2
    obtain ⟨heqn, _, _⟩ := skel_get h i h1 h2
    rw [← heqn]
    exact hne _ (List.getElem_mem h1)

/-- A name listed by `childNames db p` for a non-empty, non-`c` parent `p`
is neither `c` nor empty, provided every row named `c` is a root and no
row has an empty name. -/
theorem childNames_ne (db : Db) (p c : String)
    (hc : ∀ n ∈ db, n.name = c → n.parent = "")
    (hne : ∀ n ∈ db, n.name ≠ "")
    (hpe : p ≠ "") :
    ∀ e ∈ childNames db p, e ≠ c ∧ e ≠ "" := by
  intro e he
  obtain ⟨m, hm, rfl⟩ := List.mem_map.mp he
  obtain ⟨hmdb, hmp⟩ := List.mem_filter.mp hm
  have hmp2 : m.parent = p := by simpa using hmp
  constructor
  · intro hec
    have := hc m hmdb hec
    rw [hmp2] at this
    exact hpe this
  · exact hne m hmdb

/-- Joint statement: a rebuild rooted at `p ≠ c` never touches the rows
named `c`, as long as every row named `c` is a root (so `c` never shows up
in any child enumeration) and no row has an empty name. -/
theorem rebuild_stable (c : String) (fuel : Nat) :
    (∀ db p l db2 r2, rebuild_node fuel db p l = some (db2, r2) →
      (∀ n ∈ db, n.name = c → n.parent = "") →
      (∀ n ∈ db, n.name ≠ "") →
      p ≠ c → p ≠ "" →
      ∀ i (h1 : i < db.length) (h2 : i < db2.length),
        (db[i]).name = c → db2[i] = db[i]) ∧
    (∀ db cs r db2 r2, rebuild_children fuel db cs r = some (db2, r2) →
      (∀ n ∈ db, n.name = c → n.parent = "") →
      (∀ n ∈ db, n.name ≠ "") →
      (∀ e ∈ cs, e ≠ c ∧ e ≠ "") →
      ∀ i (h1 : i < db.length) (h2 : i < db2.length),
        (db[i]).name = c → db2[i] = db[i]) := by
  induction fuel with
  | zero =>
    constructor
    · intro db p l db2 r2 h
      simp [rebuild_node] at h
    · intro db cs r db2 r2 h hc hne hcs i h1 h2 hni
      cases cs with
      | nil =>
        simp only [rebuild_children, Option.some.injEq, Prod.mk.injEq] at h
        obtain ⟨rfl, rfl⟩ := h
        rfl
      | cons c0 rest => simp [rebuild_children] at h
  | succ fuel ih =>
    constructor
    · intro db p l db2 r2 h hc hne hpc hpe i h1 h2 hni
      simp only [rebuild_node] at h
      cases hch : rebuild_children fuel db (childNames db p) (l + 1) with
      | none => rw [hch] at h; cases h
      | some pr =>
        obtain ⟨dbc, right⟩ := pr
        rw [hch] at h
        simp only [Option.some.injEq, Prod.mk.injEq] at h
        obtain ⟨hdb2, hr2⟩ := h
        subst hdb2
        have hci : i < dbc.length := by
          have := skel_length ((rebuild_skel fuel).2 db _ _ dbc right hch)
          omega
        have hstable := ih.2 db (childNames db p) (l + 1) dbc right hch hc hne
          (childNames_ne db p c hc hne hpe) i h1 hci hni
        rw [getElem_sqlUpdate _ _ _ i hci h2, hstable]
        rw [if_neg (by
          simp only [hni, beq_iff_eq]
          exact fun hcp => hpc hcp.symm)]
    · intro db cs r db2 r2 h hc hne hcs i h1 h2 hni
      cases cs with
      | nil =>
        simp only [rebuild_children, Option.some.injEq, Prod.mk.injEq] at h
        obtain ⟨rfl, rfl⟩ := h
        rfl
      | cons c0 rest =>
        simp only [rebuild_children] at h
        cases hn : rebuild_node fuel db c0 r with
        | none => rw [hn] at h; cases h
        | some pr =>
          obtain ⟨dbm, rm⟩ := pr
          rw [hn] at h
          have hskel1 : Skel db dbm := (rebuild_skel fuel).1 db c0 r dbm rm hn
          have hmi : i < dbm.length := by
            have := skel_length hskel1
            omega
          have hstep := ih.1 db c0 r dbm rm hn hc hne (hcs c0 (by simp)).1
            (hcs c0 (by simp)).2 i h1 hmi hni
          obtain ⟨hc2, hne2⟩ := ok_of_skel hskel1 c hc hne
          have hrest := ih.2 dbm rest rm db2 r2 h hc2 hne2
            (fun e he => hcs e (by simp [he])) i hmi h2
            (by rw [hstep]; exact hni)
          rw [hrest, hstep]

/-- Relation between two runs of the rebuild on same-skeleton tables:
positionally, either both runs left the row untouched or they assigned the
same bounds. -/
def SimP (d1 o1 d2 o2 : Db) : Prop :=
  ∀ i (h1 : i < d1.length) (h2 : i < o1.length) (h3 : i < d2.length)
    (h4 : i < o2.length),
    (o1[i] = d1[i] ∧ o2[i] = d2[i]) ∨
    ((o1[i]).lft = (o2[i]).lft ∧ (o1[i]).rgt = (o2[i]).rgt)

/-- Joint statement: the rebuild is driven purely by the skeleton — on two
tables with the same skeleton it succeeds in lockstep with the same
counters, and each row is either left untouched in both runs or assigned
identical bounds in both. -/
theorem rebuild_sim (fuel : Nat) :
    (∀ db1 db2 p l o1 r, Skel db1 db2 →
      rebuild_node fuel db1 p l = some (o1, r) →
      ∃ o2, rebuild_node fuel db2 p l = some (o2, r) ∧ SimP db1 o1 db2 o2) ∧
    (∀ db1 db2 cs r0 o1 r, Skel db1 db2 →
      rebuild_children fuel db1 cs r0 = some (o1, r) →
      ∃ o2, rebuild_children fuel db2 cs r0 = some (o2, r) ∧
        SimP db1 o1 db2 o2) := by
  induction fuel with
  | zero =>
    constructor
    · intro db1 db2 p l o1 r hs h
      simp [rebuild_node] at h
    · intro db1 db2 cs r0 o1 r hs h
      cases cs with
      | nil =>
        simp only [rebuild_children, Option.some.injEq, Prod.mk.injEq] at h
        obtain ⟨rfl, rfl⟩ := h
        exact ⟨db2, rfl, fun i h1 h2 h3 h4 => Or.inl ⟨rfl, rfl⟩⟩
      | cons c0 rest => simp [rebuild_children] at h
  | succ fuel ih =>
    constructor
    · intro db1 db2 p l o1 r hs h
      simp only [rebuild_node] at h
      cases hch : rebuild_children fuel db1 (childNames db1 p) (l + 1) with
      | none => rw [hch] at h; cases h
      | some pr =>
        obtain ⟨oc1, right⟩ := pr
        rw [hch] at h
        simp only [Option.some.injEq, Prod.mk.injEq] at h
        obtain ⟨ho1, hr⟩ := h
        obtain ⟨oc2, hoc2, hsim⟩ := ih.2 db1 db2 (childNames db1 p) (l + 1)
          oc1 right hs hch
        refine ⟨sqlUpdate (fun n => n.name == p)
          (fun n => { n with lft := l, rgt := right }) oc2, ?_, ?_⟩
        · simp only [rebuild_node]
          rw [← childNames_eq_of_skel hs p, hoc2]
          simp only []
          rw [hr]
        · subst ho1
          intro i h1 h2 h3 h4
          have hsk1 : Skel db1 oc1 := (rebuild_skel fuel).2 db1 _ _ oc1 right hch
          have hsk2 : Skel db2 oc2 := (rebuild_skel fuel).2 db2 _ _ oc2 right hoc2
          have hl1 : i < oc1.length := by
            have := skel_length hsk1
            omega
          have hl2 : i < oc2.length := by
            have := skel_length hsk2
            omega
          have hname1 : (oc1[i]).name = (db1[i]).name :=
            ((skel_get hsk1 i h1 hl1).1).symm
          have hname2 : (oc2[i]).name = (db2[i]).name :=
            ((skel_get hsk2 i h3 hl2).1).symm
          have hname12 : (db1[i]).name = (db2[i]).name :=
            (skel_get hs i h1 h3).1
          rw [getElem_sqlUpdate _ _ _ i hl1 h2, getElem_sqlUpdate _ _ _ i hl2 h4]
          by_cases hb : ((oc1[i]).name == p) = true
          · have hb2 : ((oc2[i]).name == p) = true := by
              rw [hname2, ← hname12, ← hname1]
              exact hb
            rw [if_pos hb, if_pos hb2]
            exact Or.inr ⟨rfl, rfl⟩
          · have hb2 : ((oc2[i]).name == p) = false := by
              rw [hname2, ← hname12, ← hname1]
              simpa using hb
            rw [if_neg hb, if_neg (by simp [hb2])]
            exact hsim i h1 hl1 h3 hl2
    · intro db1 db2 cs r0 o1 r hs h
      cases cs with
      | nil =>
        simp only [rebuild_children, Option.some.injEq, Prod.mk.injEq] at h
        obtain ⟨rfl, rfl⟩ := h
        exact ⟨db2, rfl, fun i h1 h2 h3 h4 => Or.inl ⟨rfl, rfl⟩⟩
      | cons c0 rest =>
        simp only [rebuild_children] at h
        cases hn : rebuild_node fuel db1 c0 r0 with
        | none => rw [hn] at h; cases h
        | some pr =>
          obtain ⟨m1, rm⟩ := pr
          rw [hn] at h
          obtain ⟨m2, hm2, hsim1⟩ := ih.1 db1 db2 c0 r0 m1 rm hs hn
          have hskm : Skel m1 m2 :=
            skel_trans (skel_symm ((rebuild_skel fuel).1 db1 c0 r0 m1 rm hn))
              (skel_trans hs ((rebuild_skel fuel).1 db2 c0 r0 m2 rm hm2))
          obtain ⟨o2, ho2, hsim2⟩ := ih.2 m1 m2 rest rm o1 r hskm h
          refine ⟨o2, ?_, ?_⟩
          · simp only [rebuild_children]
            rw [hm2]
            simp only []
            exact ho2
          · intro i h1 h2 h3 h4
            have hlm1 : i < m1.length := by
              have := skel_length ((rebuild_skel fuel).1 db1 c0 r0 m1 rm hn)
              omega
            have hlm2 : i < m2.length := by
              have := skel_length ((rebuild_skel fuel).1 db2 c0 r0 m2 rm hm2)
              omega
            rcases hsim2 i hlm1 h2 hlm2 h4 with ⟨he1, he2⟩ | hbounds
            · rcases hsim1 i h1 hlm1 h3 hlm2 with ⟨hf1, hf2⟩ | hbounds1
              · exact Or.inl ⟨he1.trans hf1, he2.trans hf2⟩
              · rw [he1, he2]
                exact Or.inr hbounds1
            · exact Or.inr hbounds

/-! ## C7 — rebuilding twice yields identical bounds -/

/-- C7: a successful `rebuild_tree` is idempotent — running it again on
its own output (no structural change in between) returns the very same
table, hence identical `(lft, rgt)` for every node. -/
theorem rebuild_tree_idempotent (fuel : Nat) (db db2 : Db)
    (hok : rebuild_tree fuel db = some db2) :
    rebuild_tree fuel db2 = some db2 := by
  unfold rebuild_tree at hok ⊢
  cases hc : rebuild_children fuel db (rootNames db) 1 with
  | none => rw [hc] at hok; cases hok
  | some pr =>
    obtain ⟨dbr, rfin⟩ := pr
    rw [hc] at hok
    simp only [Option.some.injEq] at hok
    subst hok
    have hskel : Skel db dbr := (rebuild_skel fuel).2 db _ _ dbr rfin hc
    obtain ⟨o2, ho2, hsim⟩ := (rebuild_sim fuel).2 db dbr (rootNames db) 1
      dbr rfin hskel hc
    rw [← rootNames_eq_of_skel hskel, ho2]
    have hskel2 : Skel dbr o2 := (rebuild_skel fuel).2 dbr _ _ o2 rfin ho2
    have hlen : o2.length = dbr.length := (skel_length hskel2).symm
    have : o2 = dbr := by
      apply List.ext_getElem hlen
      intro i h2 h1
      have hdbi : i < db.length := by
        have := skel_length hskel
        omega
      obtain ⟨hn, hp, ho⟩ := skel_get hskel2 i h1 h2
      rcases hsim i hdbi h1 h1 h2 with ⟨he1, he2⟩ | ⟨hb1, hb2⟩
      · exact he2
      · exact node_eq_of_fields hn.symm hp.symm ho.symm hb1.symm hb2.symm
    rw [this]

/-- Witness for C7: rebuilding the already-rebuilt three-node table
`r(1,6) ⊃ {b(2,3), a(4,5)}` reproduces it exactly. -/
theorem rebuild_tree_idempotent_witness :
    rebuild_tree 10 [⟨"r", "", "", 1, 6⟩, ⟨"b", "r", "", 2, 3⟩, ⟨"a", "r", "", 4, 5⟩] =
      some [⟨"r", "", "", 1, 6⟩, ⟨"b", "r", "", 2, 3⟩, ⟨"a", "r", "", 4, 5⟩] :=
  rebuild_tree_idempotent 10
    [⟨"r", "", "", 0, 0⟩, ⟨"b", "r", "", 0, 0⟩, ⟨"a", "r", "", 0, 0⟩]
    [⟨"r", "", "", 1, 6⟩, ⟨"b", "r", "", 2, 3⟩, ⟨"a", "r", "", 4, 5⟩] (by decide)

/-! ## C2 — the shape of `rebuild_tree`'s numbering -/

/-- One more unit of fuel never changes a successful result. -/
theorem rebuild_mono_succ (fuel : Nat) :
    (∀ db p l out, rebuild_node fuel db p l = some out →
      rebuild_node (fuel + 1) db p l = some out) ∧
    (∀ db cs r out, rebuild_children fuel db cs r = some out →
      rebuild_children (fuel + 1) db cs r = some out) := by
  induction fuel with
  | zero =>
    constructor
    · intro db p l out h
      simp [rebuild_node] at h
    · intro db cs r out h
      cases cs with
      | nil => exact h
      | cons c rest => simp [rebuild_children] at h
  | succ fuel ih =>
    constructor
    · intro db p l out h
      simp only [rebuild_node] at h ⊢
      cases hch : rebuild_children fuel db (childNames db p) (l + 1) with
      | none => rw [hch] at h; cases h
      | some pr =>
        rw [hch] at h
        rw [ih.2 db _ _ pr hch]
        exact h
    · intro db cs r out h
      cases cs with
      | nil => exact h
      | cons c rest =>
        simp only [rebuild_children] at h ⊢
        cases hn : rebuild_node fuel db c r with
        | none => rw [hn] at h; cases h
        | some pr =>
          rw [hn] at h
          rw [ih.1 db c r pr hn]
          exact ih.2 pr.1 rest pr.2 out h

/-- Fuel monotonicity of the rebuild. -/
theorem rebuild_mono {f f' : Nat} (hle : f ≤ f') :
    (∀ db p l out, rebuild_node f db p l = some out →
      rebuild_node f' db p l = some out) ∧
    (∀ db cs r out, rebuild_children f db cs r = some out →
      rebuild_children f' db cs r = some out) := by
  induction hle with
  | refl => exact ⟨fun _ _ _ _ h => h, fun _ _ _ _ h => h⟩
  | step hle ih =>
    constructor
    · intro db p l out h
      exact (rebuild_mono_succ _).1 db p l out (ih.1 db p l out h)
    · intro db cs r out h
      exact (rebuild_mono_succ _).2 db cs r out (ih.2 db cs r out h)

/-- The empty worklist is the identity at any fuel. -/
theorem rebuild_children_nil (fuel : Nat) (db : Db) (r : Int) :
    rebuild_children fuel db [] r = some (db, r) := by
  cases fuel <;> rfl

/-- Splitting the sequential worklist: a successful run over `xs ++ ys` is
a successful run over `xs` followed by one over `ys` from the intermediate
state, all at the same fuel. -/
theorem rebuild_children_append (xs : List String) :
    ∀ fuel db r ys db2 r2,
      rebuild_children fuel db (xs ++ ys) r = some (db2, r2) →
      ∃ mid rm, rebuild_children fuel db xs r = some (mid, rm) ∧
        rebuild_children fuel mid ys rm = some (db2, r2) := by
  induction xs with
  | nil =>
    intro fuel db r ys db2 r2 h
    exact ⟨db, r, rebuild_children_nil fuel db r, h⟩
  | cons x xt ih =>
    intro fuel db r ys db2 r2 h
    cases fuel with
    | zero => simp [rebuild_children] at h
    | succ fuel =>
      simp only [List.cons_append, rebuild_children] at h
      cases hn : rebuild_node fuel db x r with
      | none => rw [hn] at h; cases h
      | some pr =>
        obtain ⟨dbm, rm0⟩ := pr
        rw [hn] at h
        obtain ⟨mid, rm, h1, h2⟩ := ih fuel dbm rm0 ys db2 r2 h
        refine ⟨mid, rm, ?_, (rebuild_mono (Nat.le_succ fuel)).2 mid ys rm _ h2⟩
        simp only [rebuild_children]
        rw [hn]
        exact h1

/-- With globally distinct keys, a key determines its row. -/
theorem name_unique (db : Db) (h : (db.map (fun n => n.name)).Nodup) :
    ∀ m ∈ db, ∀ n ∈ db, m.name = n.name → m = n := by
  induction db with
  | nil => intro m hm; cases hm
  | cons a l ih =>
    intro m hm n hn heq
    simp only [List.map_cons, List.nodup_cons] at h
    rcases List.mem_cons.mp hm with rfl | hm2 <;>
      rcases List.mem_cons.mp hn with rfl | hn2
    · rfl
    · exact absurd (List.mem_map.mpr ⟨n, hn2, heq.symm⟩) h.1
    · exact absurd (List.mem_map.mpr ⟨m, hm2, heq⟩) h.1
    · exact ih h.2 m hm2 n hn2 heq

/-- The root enumeration is lexicographically sorted (`ORDER BY name
ASC`). -/
theorem rootNames_sorted (db : Db) :
    List.Pairwise (fun a b => strLe a b = true) (rootNames db) := by
  haveI : IsTotal String (fun a b => strLe a b = true) :=
    ⟨fun a b => lexLe_total a.data b.data⟩
  haveI : IsTrans String (fun a b => strLe a b = true) :=
    ⟨fun _ _ _ h1 h2 => lexLe_trans _ _ _ h1 h2⟩
  exact List.sorted_insertionSort _ _

/-- Root keys are distinct when all keys are. -/
theorem rootNames_nodup (db : Db) (h : (db.map (fun n => n.name)).Nodup) :
    (rootNames db).Nodup := by
  have hsub : ((db.filter (fun n => n.parent == "")).map (fun n => n.name)).Sublist
      (db.map (fun n => n.name)) :=
    (List.filter_sublist db).map _
  exact ((List.perm_insertionSort _ _).nodup_iff).mpr (hsub.nodup h)

/-- Every enumerated root key names a root row. -/
theorem rootNames_mem {db : Db} {e : String} (h : e ∈ rootNames db) :
    ∃ m ∈ db, m.name = e ∧ m.parent = "" := by
  have h2 := (List.perm_insertionSort (strLe · ·) _).mem_iff.mp h
  obtain ⟨m, hm, rfl⟩ := List.mem_map.mp h2
  obtain ⟨hmdb, hmp⟩ := List.mem_filter.mp hm
  exact ⟨m, hmdb, rfl, by simpa using hmp⟩

/-- Processing a worklist `cs1 ++ c :: cs2` from state `db0` at counter
`r0`: the segment before `c` ends at some `(db1, r1)`, the call on `c`
spans `[r1, r2 - 1]`, and — provided every row named `c` is a root, no row
has an empty name, and `c` appears in no later worklist entry — the rows
named `c` keep exactly the bounds `(r1, r2 - 1)` in the final table. -/
theorem rebuild_children_split (fuel : Nat) (db0 : Db) (cs1 : List String)
    (c : String) (cs2 : List String) (r0 : Int) (db2 : Db) (rfin : Int)
    (hchain : rebuild_children fuel db0 (cs1 ++ c :: cs2) r0 = some (db2, rfin))
    (hcP : ∀ n ∈ db0, n.name = c → n.parent = "")
    (hneP : ∀ n ∈ db0, n.name ≠ "")
    (hcs2 : ∀ e ∈ cs2, e ≠ c ∧ e ≠ "") :
    ∃ db1 r1 dbc r2,
      rebuild_children fuel db0 cs1 r0 = some (db1, r1) ∧
      rebuild_node fuel db1 c r1 = some (dbc, r2) ∧
      rebuild_children fuel dbc cs2 r2 = some (db2, rfin) ∧
      r0 ≤ r1 ∧ r1 + 2 ≤ r2 ∧
      ∀ i (hi : i < db2.length), (db2[i]).name = c →
        (db2[i]).lft = r1 ∧ (db2[i]).rgt = r2 - 1 := by
  obtain ⟨db1, r1, hcs1, hrest⟩ :=
    rebuild_children_append cs1 fuel db0 r0 (c :: cs2) db2 rfin hchain
  cases fuel with
  | zero => simp [rebuild_children] at hrest
  | succ f =>
    simp only [rebuild_children] at hrest
    cases hn : rebuild_node f db1 c r1 with
    | none => rw [hn] at hrest; cases hrest
    | some pr =>
      obtain ⟨dbc, r2⟩ := pr
      rw [hn] at hrest
      have hnode : rebuild_node (f + 1) db1 c r1 = some (dbc, r2) :=
        (rebuild_mono_succ f).1 db1 c r1 (dbc, r2) hn
      have hcont : rebuild_children (f + 1) dbc cs2 r2 = some (db2, rfin) :=
        (rebuild_mono_succ f).2 dbc cs2 r2 (db2, rfin) hrest
      have hs01 : Skel db0 db1 := (rebuild_skel (f + 1)).2 db0 _ _ db1 r1 hcs1
      have hs1c : Skel db1 dbc := (rebuild_skel f).1 db1 c r1 dbc r2 hn
      have hsc2 : Skel dbc db2 := (rebuild_skel f).2 dbc _ _ db2 rfin hrest
      obtain ⟨hc1, hne1⟩ := ok_of_skel hs01 c hcP hneP
      obtain ⟨hcC, hneC⟩ := ok_of_skel hs1c c hc1 hne1
      have hsets := rebuild_node_sets_parent f db1 c r1 dbc r2 hn
      have hstab := (rebuild_stable c f).2 dbc cs2 r2 db2 rfin hrest hcC hneC hcs2
      refine ⟨db1, r1, dbc, r2, hcs1, hnode, hcont, ?_, ?_, ?_⟩
      · exact ((rebuild_range (f + 1)).2 db0 _ _ db1 r1 hcs1).2.1
      · exact ((rebuild_range f).1 db1 c r1 dbc r2 hn).2.1
      · intro i hi hname
        have hic : i < dbc.length := by
          have := skel_length hsc2
          omega
        have hnamec : (dbc[i]).name = c := by
          rw [(skel_get hsc2 i hic hi).1]
          exact hname
        have heq := hstab i hic hi hnamec
        rw [heq]
        exact hsets i hic hnamec

/-- Counterexample to C2 as stated: the child `SELECT` of `rebuild_node`
(nestedset.py:180) has no `ORDER BY`, so children are visited in store
order, not lexicographic order.  On a table whose rows are stored as
`r, b, a` (children `b` before `a`), the source assigns `b = (2,3)` and
`a = (4,5)`, whereas the claimed lexicographic child order (the
`rebuild_tree_lexOrder` variant) would assign `a = (2,3)` and
`b = (4,5)`. -/
theorem rebuild_child_order_cex :
    rebuild_tree 10 [⟨"r", "", "", 0, 0⟩, ⟨"b", "r", "", 0, 0⟩, ⟨"a", "r", "", 0, 0⟩] =
      some [⟨"r", "", "", 1, 6⟩, ⟨"b", "r", "", 2, 3⟩, ⟨"a", "r", "", 4, 5⟩] ∧
    rebuild_tree_lexOrder 10
        [⟨"r", "", "", 0, 0⟩, ⟨"b", "r", "", 0, 0⟩, ⟨"a", "r", "", 0, 0⟩] =
      some [⟨"r", "", "", 1, 6⟩, ⟨"b", "r", "", 4, 5⟩, ⟨"a", "r", "", 2, 3⟩] ∧
    rebuild_tree 10 [⟨"r", "", "", 0, 0⟩, ⟨"b", "r", "", 0, 0⟩, ⟨"a", "r", "", 0, 0⟩] ≠
      rebuild_tree_lexOrder 10
        [⟨"r", "", "", 0, 0⟩, ⟨"b", "r", "", 0, 0⟩, ⟨"a", "r", "", 0, 0⟩] := by
  decide

/-- C2 (amended): `rebuild_tree` performs depth-first pre-order
numbering with a shared counter starting at 1; the roots are processed in
lexicographic key order, each worklist entry `c` is assigned
`lft = counter` on entry and `rgt = counter` after all its children
(children enumerated in store order — the child query imposes no
ordering); distinct roots receive disjoint, non-overlapping interval
ranges in root-enumeration order. -/
theorem rebuild_tree_preorder (fuel : Nat) (db db2 : Db)
    (hnames : (db.map (fun n => n.name)).Nodup)
    (hne : ∀ n ∈ db, n.name ≠ "")
    (hok : rebuild_tree fuel db = some db2) :
    List.Pairwise (fun a b => strLe a b = true) (rootNames db) ∧
    (∀ cs1 c cs2, rootNames db = cs1 ++ c :: cs2 →
      ∃ db1 r1 dbc r2,
        rebuild_children fuel db cs1 1 = some (db1, r1) ∧
        rebuild_node fuel db1 c r1 = some (dbc, r2) ∧
        1 ≤ r1 ∧ r1 + 2 ≤ r2 ∧
        (∀ n ∈ db2, n.name = c → n.lft = r1 ∧ n.rgt = r2 - 1)) ∧
    (∀ cs1 c cs2 d cs3, rootNames db = cs1 ++ c :: (cs2 ++ d :: cs3) →
      ∀ nc ∈ db2, nc.name = c → ∀ nd ∈ db2, nd.name = d →
        nc.rgt < nd.lft) := by
  unfold rebuild_tree at hok
  cases hch : rebuild_children fuel db (rootNames db) 1 with
  | none => rw [hch] at hok; cases hok
  | some pr =>
    obtain ⟨dbr, rfin⟩ := pr
    rw [hch] at hok
    simp only [Option.some.injEq] at hok
    subst hok
    have hrnodup : (rootNames db).Nodup := rootNames_nodup db hnames
    have hrootP : ∀ c, c ∈ rootNames db → ∀ n ∈ db, n.name = c → n.parent = "" := by
      intro c hc n hn hname
      obtain ⟨m, hmdb, hmname, hmp⟩ := rootNames_mem hc
      have := name_unique db hnames n hn m hmdb (by rw [hname, hmname])
      rw [this]
      exact hmp
    have hrootNE : ∀ e, e ∈ rootNames db → e ≠ "" := by
      intro e he
      obtain ⟨m, hmdb, hmname, _⟩ := rootNames_mem he
      rw [← hmname]
      exact hne m hmdb
    refine ⟨rootNames_sorted db, ?_, ?_⟩
    · intro cs1 c cs2 hsplit
      rw [hsplit] at hch
      have hcmem : c ∈ rootNames db := by rw [hsplit]; simp
      have hcs2ne : ∀ e ∈ cs2, e ≠ c ∧ e ≠ "" := by
        intro e he
        have hnd2 : (c :: cs2).Nodup := by
          rw [hsplit] at hrnodup
          exact hrnodup.of_append_right
        constructor
        · intro hec
          subst hec
          exact (List.nodup_cons.mp hnd2).1 he
        · exact hrootNE e (by rw [hsplit]; simp [he])
      obtain ⟨db1, r1, dbc, r2, h1, h2, _, h4, h5, hrows⟩ :=
        rebuild_children_split fuel db cs1 c cs2 1 dbr rfin hch
          (hrootP c hcmem) hne hcs2ne
      refine ⟨db1, r1, dbc, r2, h1, h2, h4, h5, ?_⟩
      intro n hn hname
      obtain ⟨i, hi, rfl⟩ := List.getElem_of_mem hn
      exact hrows i hi hname
    · intro cs1 c cs2 d cs3 hsplit
      rw [hsplit] at hch
      have hcmem : c ∈ rootNames db := by rw [hsplit]; simp
      have hdmem : d ∈ rootNames db := by rw [hsplit]; simp
      have hnd2 : (c :: (cs2 ++ d :: cs3)).Nodup := by
        rw [hsplit] at hrnodup
        exact hrnodup.of_append_right
      have hcnotin : c ∉ cs2 ++ d :: cs3 := (List.nodup_cons.mp hnd2).1
      have hnd3 : (d :: cs3).Nodup :=
        ((List.nodup_cons.mp hnd2).2).of_append_right
      have htail_ne : ∀ e ∈ cs2 ++ d :: cs3, e ≠ c ∧ e ≠ "" := by
        intro e he
        constructor
        · intro hec
          subst hec
          exact hcnotin he
        · refine hrootNE e ?_
          rw [hsplit]
          simp only [List.mem_append, List.mem_cons] at he ⊢
          tauto
      obtain ⟨db1, r1, dbc, r2, h1, h2, hcont, h4, h5, hrowsc⟩ :=
        rebuild_children_split fuel db cs1 c (cs2 ++ d :: cs3) 1 dbr rfin hch
          (hrootP c hcmem) hne htail_ne
      -- transfer the root facts about `d` to the state after `c`
      have hsk0c : Skel db dbc :=
        skel_trans ((rebuild_skel fuel).2 db _ _ db1 r1 h1)
          ((rebuild_skel fuel).1 db1 c r1 dbc r2 h2)
      obtain ⟨hdP, hdNE⟩ := ok_of_skel hsk0c d (hrootP d hdmem) hne
      have hcs3ne : ∀ e ∈ cs3, e ≠ d ∧ e ≠ "" := by
        intro e he
        constructor
        · intro hed
          subst hed
          exact (List.nodup_cons.mp hnd3).1 he
        · refine hrootNE e ?_
          rw [hsplit]
          simp only [List.mem_append, List.mem_cons]
          tauto
      obtain ⟨dbm, r3, dbd, r4, g1, g2, _, g4, g5, hrowsd⟩ :=
        rebuild_children_split fuel dbc cs2 d cs3 r2 dbr rfin hcont hdP hdNE hcs3ne
      intro nc hnc hcname nd hnd hdname
      obtain ⟨i, hi, rfl⟩ := List.getElem_of_mem hnc
      obtain ⟨j, hj, rfl⟩ := List.getElem_of_mem hnd
      obtain ⟨hclft, hcrgt⟩ := hrowsc i hi hcname
      obtain ⟨hdlft, hdrgt⟩ := hrowsd j hj hdname
      omega

/-- Witness for C2 (amended): on a concrete three-row table the root
enumeration is sorted. -/
theorem rebuild_tree_preorder_witness :
    List.Pairwise (fun a b => strLe a b = true)
      (rootNames [⟨"r", "", "", 0, 0⟩, ⟨"b", "r", "", 0, 0⟩, ⟨"a", "r", "", 0, 0⟩]) :=
  (rebuild_tree_preorder 10
    [⟨"r", "", "", 0, 0⟩, ⟨"b", "r", "", 0, 0⟩, ⟨"a", "r", "", 0, 0⟩]
    [⟨"r", "", "", 1, 6⟩, ⟨"b", "r", "", 2, 3⟩, ⟨"a", "r", "", 4, 5⟩]
    (by decide) (by decide) (by decide)).1

end NestedSetModel
